import Mathlib

/-!
Verification of the morsels repository: integer roots, prime sieves, and
squarefree counting.  Python functions from the three notebooks are embedded
as Lean functions on `ℕ`/`ℤ` (Python's arbitrary-precision integers), with
`Except PyErr` capturing the exceptions the Python code can raise.
Python's floor division `//` on nonnegative operands is `Nat` division, and
on `ℤ` with positive divisor it is Lean's `Int` division (`Int.ediv`).
-/

namespace Morsels

/-- Kinds of Python exceptions raised by the notebook code: `ValueError`
(explicit `raise` and numpy's negative-dimension error), `IndexError`
(out-of-bounds indexing), `ZeroDivisionError` (division by zero). -/
inductive PyErr where
  | valueError : PyErr
  | indexError : PyErr
  | zeroDivisionError : PyErr
deriving DecidableEq

/-! ### Arithmetic helpers for the Newton root iteration -/

/-- Rearrangement step: `x*r^k + r*x^k ≤ x*x^k + r*r^k`. -/
theorem cross_mul_le (k x r : ℕ) : x * r ^ k + r * x ^ k ≤ x * x ^ k + r * r ^ k := by
  rcases le_total r x with h | h
  · have hk : r ^ k ≤ x ^ k := Nat.pow_le_pow_left h k
    zify
    nlinarith [mul_nonneg (sub_nonneg.2 (Int.ofNat_le.2 h)) (sub_nonneg.2 (Int.ofNat_le.2 hk))]
  · have hk : x ^ k ≤ r ^ k := Nat.pow_le_pow_left h k
    zify
    nlinarith [mul_nonneg (sub_nonneg.2 (Int.ofNat_le.2 h)) (sub_nonneg.2 (Int.ofNat_le.2 hk))]

/-- Integer AM-GM inequality in the successor form `(j+1)*r*x^j ≤ j*x^(j+1) + r^(j+1)`. -/
theorem nat_amgm_aux (j : ℕ) : ∀ x r : ℕ, 1 ≤ x →
    (j + 1) * (r * x ^ j) ≤ j * x ^ (j + 1) + r ^ (j + 1) := by
  induction j with
  | zero =>
    intro x r hx
    simp
  | succ m ih =>
    intro x r hx
    have ihx : (m + 1) * (r * x ^ m) * x ≤ (m * x ^ (m + 1) + r ^ (m + 1)) * x :=
      Nat.mul_le_mul_right x (ih x r hx)
    have e1 : (m + 1) * (r * x ^ m) * x = (m + 1) * (r * x ^ (m + 1)) := by
      rw [pow_succ]
      ring
    have e2 : (m * x ^ (m + 1) + r ^ (m + 1)) * x
        = m * x ^ (m + 2) + x * r ^ (m + 1) := by
      rw [pow_succ x (m + 1)]
      ring
    rw [e1, e2] at ihx
    have hcross : x * r ^ (m + 1) + r * x ^ (m + 1) ≤ x ^ (m + 2) + r ^ (m + 2) := by
      have h := cross_mul_le (m + 1) x r
      calc x * r ^ (m + 1) + r * x ^ (m + 1)
          ≤ x * x ^ (m + 1) + r * r ^ (m + 1) := h
        _ = x ^ (m + 2) + r ^ (m + 2) := by
            rw [pow_succ x (m + 1), pow_succ r (m + 1)]
            ring
    show (m + 1 + 1) * (r * x ^ (m + 1)) ≤ (m + 1) * x ^ (m + 1 + 1) + r ^ (m + 1 + 1)
    calc (m + 1 + 1) * (r * x ^ (m + 1))
        = (m + 1) * (r * x ^ (m + 1)) + r * x ^ (m + 1) := by ring
      _ ≤ m * x ^ (m + 2) + x * r ^ (m + 1) + r * x ^ (m + 1) := by omega
      _ ≤ m * x ^ (m + 2) + (x ^ (m + 2) + r ^ (m + 2)) := by omega
      _ = (m + 1) * x ^ (m + 1 + 1) + r ^ (m + 1 + 1) := by ring

/-- Integer arithmetic-geometric mean inequality used for the Newton step:
for `x ≥ 1`, `k*r*x^(k-1) ≤ (k-1)*x^k + r^k`. -/
theorem nat_amgm (k x r : ℕ) (hk : 1 ≤ k) (hx : 1 ≤ x) :
    k * (r * x ^ (k - 1)) ≤ (k - 1) * x ^ k + r ^ k := by
  obtain ⟨j, rfl⟩ : ∃ j, k = j + 1 := ⟨k - 1, by omega⟩
  simpa using nat_amgm_aux j x r hx

/-- Division transfer: from `a*c ≤ b*c + n` conclude `a ≤ b + n / c`. -/
theorem le_add_div_of_mul_le_mul_add {a b c n : ℕ} (hc : 0 < c)
    (h : a * c ≤ b * c + n) : a ≤ b + n / c := by
  rcases le_total a b with hab | hab
  · exact hab.trans (Nat.le_add_right b _)
  · have hd : (a - b) * c ≤ n := by
      rw [Nat.sub_mul]
      omega
    have : a - b ≤ n / c := (Nat.le_div_iff_mul_le hc).2 hd
    omega

/-- Newton-step lower bound: whenever `r^k ≤ n` and `x ≥ 1`, the integer
Newton step `((k-1)*x + n/x^(k-1)) / k` stays at or above `r`. -/
theorem newton_step_ge (n k x r : ℕ) (hk : 1 ≤ k) (hx : 1 ≤ x)
    (hr : r ^ k ≤ n) : r ≤ ((k - 1) * x + n / x ^ (k - 1)) / k := by
  have hxp : 0 < x ^ (k - 1) := pow_pos hx _
  have key : (r * k) * x ^ (k - 1) ≤ ((k - 1) * x) * x ^ (k - 1) + n := by
    have hxk : x * x ^ (k - 1) = x ^ k := by
      rw [← pow_succ']
      congr 1
      omega
    have h1 : k * (r * x ^ (k - 1)) ≤ (k - 1) * x ^ k + r ^ k := nat_amgm k x r hk hx
    calc (r * k) * x ^ (k - 1) = k * (r * x ^ (k - 1)) := by ring
      _ ≤ (k - 1) * x ^ k + r ^ k := h1
      _ ≤ (k - 1) * x ^ k + n := by omega
      _ = ((k - 1) * x) * x ^ (k - 1) + n := by
          rw [mul_assoc, hxk]
  have h2 : r * k ≤ (k - 1) * x + n / x ^ (k - 1) :=
    le_add_div_of_mul_le_mul_add hxp key
  exact (Nat.le_div_iff_mul_le hk).2 h2

/-- Newton-step strict decrease: when `x` is strictly above the floor root,
the Newton step strictly decreases. -/
theorem newton_step_lt (n k x r : ℕ) (hk : 1 ≤ k)
    (hn : n < (r + 1) ^ k) (hx : r < x) :
    ((k - 1) * x + n / x ^ (k - 1)) / k < x := by
  have hx1 : 1 ≤ x := by omega
  have hxp : 0 < x ^ (k - 1) := pow_pos hx1 _
  have hnx : n < x ^ k := by
    calc n < (r + 1) ^ k := hn
      _ ≤ x ^ k := Nat.pow_le_pow_left (by omega) k
  have hdiv : n / x ^ (k - 1) < x := by
    rw [Nat.div_lt_iff_lt_mul hxp]
    calc n < x ^ k := hnx
      _ = x * x ^ (k - 1) := by
          rw [← pow_succ']
          congr 1
          omega
  rw [Nat.div_lt_iff_lt_mul hk]
  have e : (k - 1) * x + x = x * k := by
    have h1 : x ≤ k * x := Nat.le_mul_of_pos_left x hk
    rw [Nat.sub_one_mul, mul_comm x k]
    omega
  omega

/-! ### The root iteration loops, embedded from the notebook -/

/-- Loop body of `integer_kth_root` (and, at `k = 2`, of `newton`):
iterate `y = ((k-1)*x + n//x**(k-1))//k`, replacing `x` by `y` while `y < x`,
and return the last `x`. -/
def rootLoop (n k x : ℕ) : ℕ :=
  if h : ((k - 1) * x + n / x ^ (k - 1)) / k < x then
    rootLoop n k (((k - 1) * x + n / x ^ (k - 1)) / k)
  else x
termination_by x

/-- The root loop, started at or above the floor `k`-th root `r`, returns `r`. -/
theorem rootLoop_eq (n k r : ℕ) (hk : 1 ≤ k) (hr0 : 1 ≤ r)
    (hr1 : r ^ k ≤ n) (hr2 : n < (r + 1) ^ k) :
    ∀ x, r ≤ x → rootLoop n k x = r := by
  intro x
  induction x using Nat.strong_induction_on with
  | _ x ih =>
    intro hrx
    rw [rootLoop]
    rcases Nat.eq_or_lt_of_le hrx with heq | hlt
    · have hge : r ≤ ((k - 1) * x + n / x ^ (k - 1)) / k :=
        newton_step_ge n k x r hk (by omega) hr1
      rw [dif_neg (by omega)]
      omega
    · have hge : r ≤ ((k - 1) * x + n / x ^ (k - 1)) / k :=
        newton_step_ge n k x r hk (by omega) hr1
      have hdec : ((k - 1) * x + n / x ^ (k - 1)) / k < x :=
        newton_step_lt n k x r hk hr2 hlt
      rw [dif_pos hdec]
      exact ih _ hdec hge

/-- Existence of the floor `k`-th root for `n ≥ 1`, `k ≥ 1`. -/
theorem exists_kth_root (n k : ℕ) (hk : 1 ≤ k) (hn : 1 ≤ n) :
    ∃ r, 1 ≤ r ∧ r ^ k ≤ n ∧ n < (r + 1) ^ k := by
  classical
  have hP1 : (1 : ℕ) ^ k ≤ n := by simpa using hn
  refine ⟨Nat.findGreatest (fun m => m ^ k ≤ n) n, ?_, ?_, ?_⟩
  · exact Nat.le_findGreatest hn hP1
  · exact Nat.findGreatest_spec (P := fun m => m ^ k ≤ n) (m := 1) hn hP1
  · by_cases hb : Nat.findGreatest (fun m => m ^ k ≤ n) n + 1 ≤ n
    · have h := Nat.findGreatest_is_greatest (P := fun m => m ^ k ≤ n)
        (k := Nat.findGreatest (fun m => m ^ k ≤ n) n + 1) (by omega) hb
      simpa using h
    · have h2 : Nat.findGreatest (fun m => m ^ k ≤ n) n + 1
          ≤ (Nat.findGreatest (fun m => m ^ k ≤ n) n + 1) ^ k :=
        Nat.le_self_pow (by omega) _
      omega

/-! ### integer_sqrt, newton, binary -/

/-- Binary-search loop of `integer_sqrt` / `binary`: narrow `[lo, hi]`
(`hi = (hi+lo)//2; lo = n//hi`) while `lo < hi`, returning `hi`.
Python raises `ZeroDivisionError` when the updated `hi` is `0`; the pure
loop is used by `integer_sqrt`, whose guard `n ≤ 1` makes that unreachable. -/
def sqrtLoop (n lo hi : ℕ) : ℕ :=
  if h : lo < hi then sqrtLoop n (n / ((hi + lo) / 2)) ((hi + lo) / 2) else hi
termination_by hi
decreasing_by omega

/-- Embedding of `integer_sqrt` from the notebook: validates via `n ≤ 1`
short-circuit (the `n < 0` guard lives in the `ℤ` wrapper), then runs
binary search from `hi = 2^((bitlen(n)+1)//2)`, `lo = n//hi`. -/
def integer_sqrt (n : ℕ) : ℕ :=
  if n ≤ 1 then n
  else sqrtLoop n (n / 2 ^ ((Nat.size n + 1) / 2)) (2 ^ ((Nat.size n + 1) / 2))

/-- Newton-step specialisation at `k = 2`, lower bound. -/
theorem newton_step2_ge (n x r : ℕ) (hx : 1 ≤ x) (hr : r * r ≤ n) :
    r ≤ (x + n / x) / 2 := by
  have h := newton_step_ge n 2 x r (by norm_num) hx (by simpa [pow_two] using hr)
  simpa using h

/-- Newton-step specialisation at `k = 2`, strict decrease. -/
theorem newton_step2_lt (n x r : ℕ) (hn : n < (r + 1) * (r + 1)) (hx : r < x) :
    (x + n / x) / 2 < x := by
  have h := newton_step_lt n 2 x r (by norm_num) (by simpa [pow_two] using hn) hx
  simpa using h

/-- The binary-search loop, entered with `lo = n / hi` and `hi` at or above
the floor square root `r`, returns `r`. -/
theorem sqrtLoop_eq (n r : ℕ) (hr0 : 1 ≤ r) (hr1 : r * r ≤ n)
    (hr2 : n < (r + 1) * (r + 1)) :
    ∀ hi, r ≤ hi → sqrtLoop n (n / hi) hi = r := by
  intro hi
  induction hi using Nat.strong_induction_on with
  | _ hi ih =>
    intro hrhi
    rw [sqrtLoop]
    by_cases hlt : n / hi < hi
    · rw [dif_pos hlt]
      have hge : r ≤ (hi + n / hi) / 2 := newton_step2_ge n hi r (by omega) hr1
      have hdec : (hi + n / hi) / 2 < hi := by omega
      exact ih _ hdec hge
    · rw [dif_neg hlt]
      have hhi : hi * hi ≤ n := by
        have h0 : 0 < hi := by omega
        exact (Nat.le_div_iff_mul_le h0).1 (by omega)
      have : hi < r + 1 := by
        by_contra hc
        have : (r + 1) * (r + 1) ≤ hi * hi :=
          Nat.mul_le_mul (by omega) (by omega)
        omega
      omega

/-- `integer_sqrt` computes `Nat.sqrt`. -/
theorem integer_sqrt_eq_sqrt (n : ℕ) : integer_sqrt n = Nat.sqrt n := by
  rw [integer_sqrt]
  by_cases h1 : n ≤ 1
  · rw [if_pos h1]
    interval_cases n
    · simp
    · simp
  · rw [if_neg h1]
    have hn2 : 2 ≤ n := by omega
    have hr0 : 1 ≤ Nat.sqrt n := Nat.le_sqrt.2 (by omega)
    have hr1 : Nat.sqrt n * Nat.sqrt n ≤ n := Nat.sqrt_le n
    have hr2 : n < (Nat.sqrt n + 1) * (Nat.sqrt n + 1) := Nat.lt_succ_sqrt n
    have hinit : Nat.sqrt n ≤ 2 ^ ((Nat.size n + 1) / 2) := by
      by_contra hc
      push_neg at hc
      have hq : Nat.size n ≤ 2 * ((Nat.size n + 1) / 2) := by omega
      have h2 : n < 2 ^ (2 * ((Nat.size n + 1) / 2)) :=
        lt_of_lt_of_le (Nat.lt_size_self n) (Nat.pow_le_pow_right (by norm_num) hq)
      have h3 : 2 ^ (2 * ((Nat.size n + 1) / 2))
          = 2 ^ ((Nat.size n + 1) / 2) * 2 ^ ((Nat.size n + 1) / 2) := by
        rw [two_mul, pow_add]
      have h4 : 2 ^ ((Nat.size n + 1) / 2) * 2 ^ ((Nat.size n + 1) / 2)
          ≤ Nat.sqrt n * Nat.sqrt n := Nat.mul_le_mul (by omega) (by omega)
      omega
    exact sqrtLoop_eq n (Nat.sqrt n) hr0 hr1 hr2 _ hinit

/-- Loop of the scratch `newton` function, with Python's division-by-zero
behaviour made explicit. -/
def newtonLoop (n x : ℕ) : Except PyErr ℕ :=
  if x = 0 then .error .zeroDivisionError
  else if h : (x + n / x) / 2 < x then newtonLoop n ((x + n / x) / 2)
  else .ok x
termination_by x

/-- Embedding of the notebook's `newton`: Newton iteration for the integer
square root from `x = 2^((bitlen(n)+1)//2)`. -/
def newton (n : ℕ) : Except PyErr ℕ :=
  newtonLoop n (2 ^ ((Nat.size n + 1) / 2))

/-- Loop of the scratch `binary` function, with Python's division-by-zero
behaviour made explicit. -/
def binaryLoop (n lo hi : ℕ) : Except PyErr ℕ :=
  if h : lo < hi then
    if (hi + lo) / 2 = 0 then .error .zeroDivisionError
    else binaryLoop n (n / ((hi + lo) / 2)) ((hi + lo) / 2)
  else .ok hi
termination_by hi
decreasing_by omega

/-- Embedding of the notebook's `binary`: binary search for the integer
square root, `hi = 2^((bitlen(n)+1)//2)`, `lo = n//hi`. -/
def binary (n : ℕ) : Except PyErr ℕ :=
  binaryLoop n (n / 2 ^ ((Nat.size n + 1) / 2)) (2 ^ ((Nat.size n + 1) / 2))

/-- The Newton loop, started at or above the positive floor square root,
returns it without error. -/
theorem newtonLoop_eq (n r : ℕ) (hr0 : 1 ≤ r) (hr1 : r * r ≤ n)
    (hr2 : n < (r + 1) * (r + 1)) :
    ∀ x, r ≤ x → newtonLoop n x = .ok r := by
  intro x
  induction x using Nat.strong_induction_on with
  | _ x ih =>
    intro hrx
    rw [newtonLoop]
    rw [if_neg (by omega : ¬x = 0)]
    have hge : r ≤ (x + n / x) / 2 := newton_step2_ge n x r (by omega) hr1
    rcases Nat.eq_or_lt_of_le hrx with heq | hlt
    · rw [dif_neg (by omega)]
      rw [heq]
    · have hdec : (x + n / x) / 2 < x := newton_step2_lt n x r hr2 hlt
      rw [dif_pos hdec]
      exact ih _ hdec hge

/-- The binary loop, entered with `lo = n / hi` and `hi` at or above the
positive floor square root, returns it without error. -/
theorem binaryLoop_eq (n r : ℕ) (hr0 : 1 ≤ r) (hr1 : r * r ≤ n)
    (hr2 : n < (r + 1) * (r + 1)) :
    ∀ hi, r ≤ hi → binaryLoop n (n / hi) hi = .ok r := by
  intro hi
  induction hi using Nat.strong_induction_on with
  | _ hi ih =>
    intro hrhi
    rw [binaryLoop]
    by_cases hlt : n / hi < hi
    · rw [dif_pos hlt]
      have hge : r ≤ (hi + n / hi) / 2 := newton_step2_ge n hi r (by omega) hr1
      rw [if_neg (by omega)]
      have hdec : (hi + n / hi) / 2 < hi := by omega
      exact ih _ hdec hge
    · rw [dif_neg hlt]
      have hhi : hi * hi ≤ n := by
        have h0 : 0 < hi := by omega
        exact (Nat.le_div_iff_mul_le h0).1 (by omega)
      have : hi < r + 1 := by
        by_contra hc
        have : (r + 1) * (r + 1) ≤ hi * hi :=
          Nat.mul_le_mul (by omega) (by omega)
        omega
      have : hi = r := by omega
      rw [this]

/-- Shared fact: the starting value `2^((bitlen(n)+1)//2)` dominates the
floor square root. -/
theorem sqrt_le_start (n : ℕ) : Nat.sqrt n ≤ 2 ^ ((Nat.size n + 1) / 2) := by
  by_contra hc
  push_neg at hc
  have hq : Nat.size n ≤ 2 * ((Nat.size n + 1) / 2) := by omega
  have h2 : n < 2 ^ (2 * ((Nat.size n + 1) / 2)) :=
    lt_of_lt_of_le (Nat.lt_size_self n) (Nat.pow_le_pow_right (by norm_num) hq)
  have h3 : 2 ^ (2 * ((Nat.size n + 1) / 2))
      = 2 ^ ((Nat.size n + 1) / 2) * 2 ^ ((Nat.size n + 1) / 2) := by
    rw [two_mul, pow_add]
  have h4 : 2 ^ ((Nat.size n + 1) / 2) * 2 ^ ((Nat.size n + 1) / 2)
      ≤ Nat.sqrt n * Nat.sqrt n := Nat.mul_le_mul (by omega) (by omega)
  have h5 := Nat.sqrt_le n
  omega

/-- For `n ≥ 1`, `newton` succeeds and computes the floor square root. -/
theorem newton_eq (n : ℕ) (hn : 1 ≤ n) : newton n = .ok (Nat.sqrt n) := by
  have hr0 : 1 ≤ Nat.sqrt n := Nat.le_sqrt.2 (by omega)
  exact newtonLoop_eq n (Nat.sqrt n) hr0 (Nat.sqrt_le n) (Nat.lt_succ_sqrt n) _
    (sqrt_le_start n)

/-- For `n ≥ 1`, `binary` succeeds and computes the floor square root. -/
theorem binary_eq (n : ℕ) (hn : 1 ≤ n) : binary n = .ok (Nat.sqrt n) := by
  have hr0 : 1 ≤ Nat.sqrt n := Nat.le_sqrt.2 (by omega)
  exact binaryLoop_eq n (Nat.sqrt n) hr0 (Nat.sqrt_le n) (Nat.lt_succ_sqrt n) _
    (sqrt_le_start n)

/-! ### integer_kth_root -/

/-- Starting over-estimate used by `integer_kth_root` in the notebook:
`x = 2**(n.bit_length()//k + 1)`. -/
def kthRootStart (n k : ℕ) : ℕ := 2 ^ (Nat.size n / k + 1)

/-- Embedding of `integer_kth_root` from the notebook: domain guards live in
the `ℤ` wrapper; `n ≤ 1` is returned directly, otherwise the Newton-style
`rootLoop` runs from `kthRootStart`. -/
def integer_kth_root (n k : ℕ) : ℕ :=
  if n ≤ 1 then n else rootLoop n k (kthRootStart n k)

/-- The starting over-estimate strictly dominates the floor `k`-th root. -/
theorem kth_root_lt_start (n k r : ℕ) (hk : 1 ≤ k) (hr : r ^ k ≤ n) :
    r < kthRootStart n k := by
  by_contra hc
  push_neg at hc
  rw [kthRootStart] at hc
  have hq : Nat.size n ≤ (Nat.size n / k + 1) * k := by
    have hd := Nat.div_add_mod (Nat.size n) k
    have hm : Nat.size n % k < k := Nat.mod_lt _ (by omega)
    nlinarith [hd, hm]
  have h1 : 2 ^ Nat.size n ≤ 2 ^ ((Nat.size n / k + 1) * k) :=
    Nat.pow_le_pow_right (by norm_num) hq
  have h2 : 2 ^ ((Nat.size n / k + 1) * k) = (2 ^ (Nat.size n / k + 1)) ^ k := by
    rw [pow_mul]
  have h3 : (2 ^ (Nat.size n / k + 1)) ^ k ≤ r ^ k := Nat.pow_le_pow_left hc k
  have h4 := Nat.lt_size_self n
  omega

/-- Functional correctness of `integer_kth_root` on `ℕ` for `k ≥ 1`. -/
theorem integer_kth_root_spec (n k : ℕ) (hk : 1 ≤ k) :
    (integer_kth_root n k) ^ k ≤ n ∧ n < (integer_kth_root n k + 1) ^ k := by
  rw [integer_kth_root]
  by_cases h1 : n ≤ 1
  · rw [if_pos h1]
    interval_cases n
    · constructor
      · simp [Nat.zero_pow (by omega : 0 < k)]
      · simp
    · constructor
      · simp
      · have : (1 : ℕ) < 2 ^ k := Nat.one_lt_two_pow_iff.2 (by omega)
        simpa using this
  · rw [if_neg h1]
    obtain ⟨r, hr0, hr1, hr2⟩ := exists_kth_root n k hk (by omega)
    have hstart : r ≤ kthRootStart n k := (kth_root_lt_start n k r hk hr1).le
    rw [rootLoop_eq n k r hk hr0 hr1 hr2 _ hstart]
    exact ⟨hr1, hr2⟩

/-! ### Integer-typed entry points with their validation guards -/

/-- Entry point `integer_sqrt` on Python ints: raises `ValueError` iff `n < 0`. -/
def integer_sqrtE (n : ℤ) : Except PyErr ℤ :=
  if n < 0 then .error .valueError
  else .ok (integer_sqrt n.toNat)

/-- Entry point `integer_kth_root` on Python ints: raises `ValueError` iff
`n < 0` or `k < 1`. -/
def integer_kth_rootE (n k : ℤ) : Except PyErr ℤ :=
  if n < 0 then .error .valueError
  else if k < 1 then .error .valueError
  else .ok (integer_kth_root n.toNat k.toNat)

/-- C3: on every accepted input pair, `integer_root` returns the unique floor
`k`-th root, with exact integer arithmetic.  The theorem exhibits the returned
`m` with `m^k ≤ n < (m+1)^k`, and likewise for the square-root entry point. -/
theorem claim_C3_integer_root_contract (n k : ℤ) (hn : 0 ≤ n) (hk : 1 ≤ k) :
    (∃ m : ℤ, 0 ≤ m ∧ integer_kth_rootE n k = .ok m ∧
      m ^ k.toNat ≤ n ∧ n < (m + 1) ^ k.toNat) ∧
    (∃ m : ℤ, 0 ≤ m ∧ integer_sqrtE n = .ok m ∧
      m * m ≤ n ∧ n < (m + 1) * (m + 1)) := by
  constructor
  · refine ⟨(integer_kth_root n.toNat k.toNat : ℤ), by positivity, ?_, ?_, ?_⟩
    · rw [integer_kth_rootE, if_neg (by omega), if_neg (by omega)]
    · obtain ⟨h1, _⟩ := integer_kth_root_spec n.toNat k.toNat (by omega)
      have hcast : ((integer_kth_root n.toNat k.toNat : ℤ)) ^ k.toNat
          = ((integer_kth_root n.toNat k.toNat ^ k.toNat : ℕ) : ℤ) := by
        push_cast
        ring
      rw [hcast]
      calc ((integer_kth_root n.toNat k.toNat ^ k.toNat : ℕ) : ℤ)
          ≤ (n.toNat : ℤ) := by exact_mod_cast h1
        _ = n := Int.toNat_of_nonneg hn
    · obtain ⟨_, h2⟩ := integer_kth_root_spec n.toNat k.toNat (by omega)
      have : n = (n.toNat : ℤ) := (Int.toNat_of_nonneg hn).symm
      rw [this]
      exact_mod_cast h2
  · refine ⟨(integer_sqrt n.toNat : ℤ), by positivity, ?_, ?_, ?_⟩
    · rw [integer_sqrtE, if_neg (by omega)]
    · rw [integer_sqrt_eq_sqrt]
      have h1 := Nat.sqrt_le n.toNat
      calc ((Nat.sqrt n.toNat : ℤ)) * (Nat.sqrt n.toNat : ℤ)
          = ((Nat.sqrt n.toNat * Nat.sqrt n.toNat : ℕ) : ℤ) := by push_cast; ring
        _ ≤ (n.toNat : ℤ) := by exact_mod_cast h1
        _ = n := Int.toNat_of_nonneg hn
    · rw [integer_sqrt_eq_sqrt]
      have h2 := Nat.lt_succ_sqrt n.toNat
      have : n = (n.toNat : ℤ) := (Int.toNat_of_nonneg hn).symm
      rw [this]
      exact_mod_cast h2

/-- C3 witness: concrete instance `n = 10`, `k = 2`. -/
theorem claim_C3_witness :
    (0 : ℤ) ≤ 10 ∧ (1 : ℤ) ≤ 2 ∧
    ((∃ m : ℤ, 0 ≤ m ∧ integer_kth_rootE 10 2 = .ok m ∧
      m ^ (2 : ℤ).toNat ≤ 10 ∧ (10 : ℤ) < (m + 1) ^ (2 : ℤ).toNat) ∧
    (∃ m : ℤ, 0 ≤ m ∧ integer_sqrtE 10 = .ok m ∧
      m * m ≤ 10 ∧ (10 : ℤ) < (m + 1) * (m + 1))) :=
  ⟨by norm_num, by norm_num,
    claim_C3_integer_root_contract 10 2 (by norm_num) (by norm_num)⟩

/-- C6 counterexample: at `n = 0` the claim fails — both the Newton and the
binary-search scratch formulations raise `ZeroDivisionError` (the iterate
reaches `0` and Python evaluates `n//0`), while `integer_sqrt(0)` returns `0`
through its `n ≤ 1` short-circuit. -/
theorem claim_C6_counterexample :
    newton 0 = .error .zeroDivisionError ∧
    binary 0 = .error .zeroDivisionError ∧
    integer_sqrtE 0 = .ok 0 := by
  refine ⟨?_, ?_, ?_⟩
  · rw [newton]
    norm_num
    rw [newtonLoop]
    norm_num
    rw [newtonLoop]
    norm_num
  · rw [binary]
    norm_num
    rw [binaryLoop]
    norm_num
  · rw [integer_sqrtE]
    norm_num [integer_sqrt]

/-- C6 (amended): for every `n ≥ 1` — not every `n ≥ 0`, since both scratch
forms divide by zero at `n = 0` — the Newton formulation, the binary-search
formulation and `integer_sqrt` produce identical results. -/
theorem claim_C6_newton_binary_agree (n : ℕ) (hn : 1 ≤ n) :
    newton n = .ok (integer_sqrt n) ∧ binary n = .ok (integer_sqrt n) := by
  rw [integer_sqrt_eq_sqrt]
  exact ⟨newton_eq n hn, binary_eq n hn⟩

/-- C6 witness: concrete instance `n = 9`. -/
theorem claim_C6_witness :
    (1 : ℕ) ≤ 9 ∧
    (newton 9 = .ok (integer_sqrt 9) ∧ binary 9 = .ok (integer_sqrt 9)) :=
  ⟨by norm_num, claim_C6_newton_binary_agree 9 (by norm_num)⟩

/-! ### C8: the shape of the k-th root iteration -/

/-- Single step of the `integer_kth_root` iteration:
`y = ((k-1)*x + n//x**(k-1))//k`. -/
def kthRootStep (n k x : ℕ) : ℕ := ((k - 1) * x + n / x ^ (k - 1)) / k

/-- Iterates of the `integer_kth_root` loop from the code's starting value. -/
def kthRootIter (n k i : ℕ) : ℕ := (kthRootStep n k)^[i] (kthRootStart n k)

/-- The root loop visits exactly the iterates of `kthRootStep`: it strictly
decreases up to some index `j`, stops at the first non-decrease, and returns
the `j`-th iterate. -/
theorem rootLoop_iterates (n k : ℕ) :
    ∀ x, ∃ j, rootLoop n k x = (kthRootStep n k)^[j] x ∧
      (∀ i < j, (kthRootStep n k)^[i + 1] x < (kthRootStep n k)^[i] x) ∧
      ¬((kthRootStep n k)^[j + 1] x < (kthRootStep n k)^[j] x) := by
  intro x
  induction x using Nat.strong_induction_on with
  | _ x ih =>
    rw [rootLoop]
    rw [show ((k - 1) * x + n / x ^ (k - 1)) / k = kthRootStep n k x from rfl]
    by_cases h : kthRootStep n k x < x
    · obtain ⟨j, hj1, hj2, hj3⟩ := ih _ h
      refine ⟨j + 1, ?_, ?_, ?_⟩
      · rw [dif_pos h, hj1, Function.iterate_succ_apply]
      · intro i hi
        match i with
        | 0 => simpa using h
        | i + 1 =>
          rw [Function.iterate_succ_apply (kthRootStep n k) (i + 1) x,
            Function.iterate_succ_apply (kthRootStep n k) i x]
          exact hj2 i (by omega)
      · rw [Function.iterate_succ_apply (kthRootStep n k) (j + 1) x,
          Function.iterate_succ_apply (kthRootStep n k) j x]
        exact hj3
    · refine ⟨0, ?_, by omega, by simpa using h⟩
      rw [dif_neg h]
      simp

/-- Helper: the bit length of `8` is `4`. -/
theorem size_eight : Nat.size 8 = 4 := by
  have h1 : Nat.size 8 ≤ 4 := Nat.size_le.2 (by norm_num)
  have h2 : 3 < Nat.size 8 := Nat.lt_size.2 (by norm_num)
  omega

/-- C8 counterexample: the iteration does not start from
`x0 = 2^ceil(bitlen(n)/k)`.  At `n = 8`, `k = 2` the code starts from
`2^(bitlen(8)//2 + 1) = 2^3 = 8`, whereas `2^ceil(bitlen(8)/2) = 2^2 = 4`. -/
theorem claim_C8_counterexample :
    kthRootStart 8 2 ≠ 2 ^ ((Nat.size 8 + 2 - 1) / 2) := by
  rw [kthRootStart, size_eight]
  norm_num

/-- C8 (amended): for `n ≥ 2`, `k ≥ 2` the iteration starts from the
over-estimate `x0 = 2^(bitlen(n)//k + 1)` (floor-plus-one, not ceiling),
which strictly dominates the floor root; each step applies
`x ↦ ((k-1)*x + n//x^(k-1))//k`; the iterates strictly decrease until the
first non-decrease and the returned value is the last iterate before it. -/
theorem claim_C8_iteration_shape (n k : ℕ) (hn : 2 ≤ n) (hk : 2 ≤ k) :
    kthRootStart n k = 2 ^ (Nat.size n / k + 1) ∧
    (∀ r : ℕ, r ^ k ≤ n → r < kthRootStart n k) ∧
    ∃ j, integer_kth_root n k = kthRootIter n k j ∧
      (∀ i < j, kthRootIter n k (i + 1) < kthRootIter n k i) ∧
      kthRootIter n k j ≤ kthRootIter n k (j + 1) := by
  refine ⟨rfl, ?_, ?_⟩
  · intro r hr
    exact kth_root_lt_start n k r (by omega) hr
  · obtain ⟨j, h1, h2, h3⟩ := rootLoop_iterates n k (kthRootStart n k)
    refine ⟨j, ?_, ?_, ?_⟩
    · rw [integer_kth_root, if_neg (by omega)]
      exact h1
    · intro i hi
      exact h2 i hi
    · rw [kthRootIter, kthRootIter]
      omega

/-- C8 witness: concrete instance `n = 10`, `k = 2`. -/
theorem claim_C8_witness :
    (2 : ℕ) ≤ 10 ∧ (2 : ℕ) ≤ 2 ∧
    (kthRootStart 10 2 = 2 ^ (Nat.size 10 / 2 + 1) ∧
    (∀ r : ℕ, r ^ 2 ≤ 10 → r < kthRootStart 10 2) ∧
    ∃ j, integer_kth_root 10 2 = kthRootIter 10 2 j ∧
      (∀ i < j, kthRootIter 10 2 (i + 1) < kthRootIter 10 2 i) ∧
      kthRootIter 10 2 j ≤ kthRootIter 10 2 (j + 1)) :=
  ⟨by norm_num, by norm_num, claim_C8_iteration_shape 10 2 (by norm_num) (by norm_num)⟩

/-! ### Prime sieves: numpy arrays as characteristic functions -/

/-- numpy boolean array of ones, as a characteristic function of indices. -/
def onesArr : ℕ → Bool := fun _ => true

/-- Single-cell assignment `block[i] = b`. -/
def arrSet (f : ℕ → Bool) (i : ℕ) (b : Bool) : ℕ → Bool :=
  fun j => if j = i then b else f j

/-- numpy slice assignment `block[start::step] = False`.  Bounds are not
tracked here: every read the sieves perform is at an index below the array
length, so marks beyond it are never observed. -/
def markSlice (f : ℕ → Bool) (start step : ℕ) : ℕ → Bool :=
  fun j => if start ≤ j ∧ (j - start) % step = 0 then false else f j

/-- Initial flag array of `eratosthenes`: ones with `block[0] = block[1] = False`. -/
def sieveInit : ℕ → Bool := arrSet (arrSet onesArr 0 false) 1 false

/-- Marking loop shared by `eratosthenes` and `primes`: for each `k` in `ks`,
if `block[k]` is still set, clear `block[k*k::k]`. -/
def eraFold (ks : List ℕ) (f : ℕ → Bool) : ℕ → Bool :=
  ks.foldl (fun b k => if b k then markSlice b (k * k) k else b) f

/-- Embedding of `eratosthenes(n)` (pure core; the behaviour on `n ≤ 0`,
where Python raises, lives in `eratosthenesE`): sieve flags over `[0, n]`,
loop `k` over `range(2, integer_sqrt(n)+1)`, collect flagged indices
(`np.flatnonzero`). -/
def eratosthenes (n : ℕ) : List ℕ :=
  (List.range (n + 1)).filter
    (fun i => eraFold (List.range' 2 (integer_sqrt n + 1 - 2)) sieveInit i)

/-- Embedding of the `primes(n)` helper of the counting notebook: identical
to `eratosthenes` except that the loop bound is `integer_sqrt(n+1)+1`. -/
def primes (n : ℕ) : List ℕ :=
  (List.range (n + 1)).filter
    (fun i => eraFold (List.range' 2 (integer_sqrt (n + 1) + 1 - 2)) sieveInit i)

/-- Divisibility reading of one slice mark: for `0 < k`, index `i` lies on
the slice `k*k::k` iff `k ∣ i` and `k*k ≤ i`. -/
theorem slice_cond_iff (k i : ℕ) (_hk : 0 < k) :
    (k * k ≤ i ∧ (i - k * k) % k = 0) ↔ (k ∣ i ∧ k * k ≤ i) := by
  constructor
  · rintro ⟨h1, h2⟩
    refine ⟨?_, h1⟩
    have hd : k ∣ (i - k * k) := Nat.dvd_iff_mod_eq_zero.2 h2
    have : i = (i - k * k) + k * k := by omega
    rw [this]
    exact Nat.dvd_add hd (Dvd.intro k rfl)
  · rintro ⟨h1, h2⟩
    refine ⟨h2, ?_⟩
    exact Nat.dvd_iff_mod_eq_zero.1 (Nat.dvd_sub' h1 (Dvd.intro k rfl))

/-- Characterisation of the sieve array after the marking loop over
`range(2, 2+m)`: an index stays set iff it is at least `2` and admits no
divisor `d ∈ [2, 2+m)` with `d*d ≤ i`. -/
theorem eraFold_char (m : ℕ) :
    ∀ i, eraFold (List.range' 2 m) sieveInit i = true ↔
      (2 ≤ i ∧ ∀ d, 2 ≤ d → d < 2 + m → ¬(d ∣ i ∧ d * d ≤ i)) := by
  induction m with
  | zero =>
    intro i
    simp only [List.range'_zero, eraFold, List.foldl_nil]
    rw [sieveInit, arrSet, arrSet, onesArr]
    constructor
    · intro h
      by_cases h1 : i = 1
      · simp [h1] at h
      · by_cases h0 : i = 0
        · simp [h0] at h
        · exact ⟨by omega, by omega⟩
    · intro ⟨h2, _⟩
      rw [if_neg (by omega), if_neg (by omega)]
  | succ m ih =>
    intro i
    have hsplit : List.range' 2 (m + 1) = List.range' 2 m ++ [2 + m] := by
      have : List.range' 2 (m + 1) 1 = List.range' 2 m 1 ++ [2 + 1 * m] :=
        List.range'_concat 2 m
      simpa using this
    rw [eraFold, hsplit, List.foldl_append]
    simp only [List.foldl_cons, List.foldl_nil]
    rw [show List.foldl (fun b k => if b k then markSlice b (k * k) k else b)
        sieveInit (List.range' 2 m) = eraFold (List.range' 2 m) sieveInit from rfl]
    by_cases hK : eraFold (List.range' 2 m) sieveInit (2 + m) = true
    · rw [if_pos hK]
      have hKchar := (ih (2 + m)).1 hK
      rw [markSlice]
      by_cases hcond : (2 + m) * (2 + m) ≤ i ∧ (i - (2 + m) * (2 + m)) % (2 + m) = 0
      · rw [if_pos hcond]
        have hdvd : (2 + m) ∣ i ∧ (2 + m) * (2 + m) ≤ i :=
          (slice_cond_iff (2 + m) i (by omega)).1 hcond
        constructor
        · intro h
          exact absurd h (by simp)
        · intro ⟨h2, hall⟩
          exact absurd hdvd (hall (2 + m) (by omega) (by omega))
      · rw [if_neg hcond]
        rw [ih i]
        have hnd : ¬((2 + m) ∣ i ∧ (2 + m) * (2 + m) ≤ i) := by
          intro hc
          exact hcond ((slice_cond_iff (2 + m) i (by omega)).2 hc)
        constructor
        · intro ⟨h2, hall⟩
          refine ⟨h2, fun d hd2 hdm => ?_⟩
          by_cases hdm' : d < 2 + m
          · exact hall d hd2 hdm'
          · have : d = 2 + m := by omega
            rw [this]
            exact hnd
        · intro ⟨h2, hall⟩
          exact ⟨h2, fun d hd2 hdm => hall d hd2 (by omega)⟩
    · rw [if_neg hK]
      rw [ih i]
      have hKcomp : ∃ d, 2 ≤ d ∧ d < 2 + m ∧ d ∣ (2 + m) ∧ d * d ≤ 2 + m := by
        have := (ih (2 + m)).not.1 hK
        push_neg at this
        rcases this (by omega) with ⟨d, hd2, hdm, hdvd, hsq⟩
        exact ⟨d, hd2, hdm, hdvd, hsq⟩
      constructor
      · intro ⟨h2, hall⟩
        refine ⟨h2, fun d hd2 hdm => ?_⟩
        by_cases hdm' : d < 2 + m
        · exact hall d hd2 hdm'
        · have hdK : d = 2 + m := by omega
          rintro ⟨hdvd, hsq⟩
          obtain ⟨e, he2, hem, hedvd, hesq⟩ := hKcomp
          have heI : e ∣ i := hedvd.trans (hdK ▸ hdvd)
          have heIsq : e * e ≤ i := by
            have h1 : 2 + m ≤ i := le_trans (Nat.le_mul_of_pos_left _ (by omega))
              (hdK ▸ hsq)
            omega
          exact hall e he2 hem ⟨heI, heIsq⟩
      · intro ⟨h2, hall⟩
        exact ⟨h2, fun d hd2 hdm => hall d hd2 (by omega)⟩

/-- After a marking loop whose range covers every candidate divisor up to
`sqrt n`, a surviving index `i ≤ n` is exactly a prime. -/
theorem eraFold_prime (m n i : ℕ) (hm : Nat.sqrt n < 2 + m) (hi : i ≤ n) :
    eraFold (List.range' 2 m) sieveInit i = true ↔ i.Prime := by
  rw [eraFold_char m i]
  constructor
  · intro ⟨h2, hall⟩
    by_contra hnp
    have hd := Nat.minFac_prime (by omega : i ≠ 1)
    have hdvd := Nat.minFac_dvd i
    have hsq : i.minFac * i.minFac ≤ i := by
      have := Nat.minFac_sq_le_self (by omega : 0 < i) hnp
      simpa [pow_two] using this
    have hdle : i.minFac ≤ Nat.sqrt n := by
      have h1 : i.minFac ≤ Nat.sqrt i := Nat.le_sqrt.2 hsq
      exact h1.trans (Nat.sqrt_le_sqrt hi)
    exact hall i.minFac hd.two_le (by omega) ⟨hdvd, hsq⟩
  · intro hp
    refine ⟨hp.two_le, fun d hd2 hdm => ?_⟩
    rintro ⟨hdvd, hsq⟩
    rcases (Nat.Prime.eq_one_or_self_of_dvd hp d hdvd) with h1 | h1
    · omega
    · subst h1
      nlinarith [hp.two_le]

/-- `eratosthenes` lists exactly the primes up to `n`, in increasing order. -/
theorem eratosthenes_eq (n : ℕ) :
    eratosthenes n = (List.range (n + 1)).filter (fun i => decide i.Prime) := by
  rw [eratosthenes]
  apply List.filter_congr
  intro i hi
  have hin : i ≤ n := by
    have := List.mem_range.1 hi
    omega
  have hm : Nat.sqrt n < 2 + (integer_sqrt n + 1 - 2) := by
    rw [integer_sqrt_eq_sqrt]
    omega
  rw [Bool.eq_iff_iff]
  simp only [decide_eq_true_eq]
  exact eraFold_prime _ n i hm hin

/-- `primes` lists exactly the primes up to `n`, in increasing order. -/
theorem primes_eq (n : ℕ) :
    primes n = (List.range (n + 1)).filter (fun i => decide i.Prime) := by
  rw [primes]
  apply List.filter_congr
  intro i hi
  have hin : i ≤ n := by
    have := List.mem_range.1 hi
    omega
  have hm : Nat.sqrt n < 2 + (integer_sqrt (n + 1) + 1 - 2) := by
    rw [integer_sqrt_eq_sqrt]
    have := Nat.sqrt_le_sqrt (by omega : n ≤ n + 1)
    omega
  rw [Bool.eq_iff_iff]
  simp only [decide_eq_true_eq]
  exact eraFold_prime _ n i hm hin

/-- Membership in `eratosthenes n`. -/
theorem eratosthenes_mem (n p : ℕ) :
    p ∈ eratosthenes n ↔ p.Prime ∧ p ≤ n := by
  rw [eratosthenes_eq]
  simp only [List.mem_filter, List.mem_range, decide_eq_true_eq]
  exact ⟨fun h => ⟨h.2, by omega⟩, fun h => ⟨by omega, h.1⟩⟩

/-- `eratosthenes n` is strictly increasing. -/
theorem eratosthenes_sorted (n : ℕ) :
    List.Sorted (· < ·) (eratosthenes n) := by
  rw [eratosthenes_eq]
  exact (List.pairwise_lt_range (n + 1)).sublist (List.filter_sublist _)

/-! ### The odd-only sieve eratosthenes2 -/

/-- Initial flag array of `eratosthenes2`: ones with `block[0] = False`
(index `l` stands for the odd number `2*l+1`). -/
def sieve2Init : ℕ → Bool := arrSet onesArr 0 false

/-- Marking loop of `eratosthenes2`: for each odd `k` in `ks`, if
`block[k//2]` is still set, clear `block[k*k//2::k]`. -/
def era2Fold (ks : List ℕ) (f : ℕ → Bool) : ℕ → Bool :=
  ks.foldl (fun b k => if b (k / 2) then markSlice b (k * k / 2) k else b) f

/-- Embedding of `eratosthenes2(n)` (pure core, `n ≥ 1`): flags over the odd
numbers `2*l+1 < n+1`, loop `k` over `range(3, integer_sqrt(n)+1, 2)`,
result `np.r_[2, 2*nonzero + 1]`. -/
def eratosthenes2 (n : ℕ) : List ℕ :=
  2 :: (((List.range ((n + 1) / 2)).filter
    (fun l => era2Fold (List.range' 3 ((integer_sqrt n + 1 - 3 + 1) / 2) 2) sieve2Init l)).map
      (fun l => 2 * l + 1))

/-- Odd-slice reading: for odd `k ≥ 1` and index `l` of the odd number
`u = 2*l+1`, membership in the slice `k*k//2::k` says `k ∣ u ∧ k*k ≤ u`. -/
theorem slice2_cond_iff (k l : ℕ) (hk : Odd k) (_hk1 : 1 ≤ k) :
    (k * k / 2 ≤ l ∧ (l - k * k / 2) % k = 0) ↔
      (k ∣ (2 * l + 1) ∧ k * k ≤ 2 * l + 1) := by
  obtain ⟨t, ht⟩ := hk
  have hodd : Odd (k * k) := by
    rw [ht]
    exact ⟨2 * t * t + 2 * t, by ring⟩
  obtain ⟨s, hs⟩ := hodd
  have hhalf : k * k / 2 = s := by omega
  have hco : Nat.Coprime k 2 := by
    rw [Nat.coprime_two_right]
    exact ⟨t, ht⟩
  constructor
  · rintro ⟨h1, h2⟩
    rw [hhalf] at h1 h2
    have hd : k ∣ (l - s) := Nat.dvd_iff_mod_eq_zero.2 h2
    have hd2 : k ∣ 2 * (l - s) := hd.mul_left 2
    have he : 2 * l + 1 = 2 * (l - s) + k * k := by omega
    constructor
    · rw [he]
      exact Nat.dvd_add hd2 (Dvd.intro k rfl)
    · omega
  · rintro ⟨h1, h2⟩
    rw [hhalf]
    have hl : s ≤ l := by omega
    refine ⟨hl, ?_⟩
    have hd : k ∣ (2 * l + 1) - k * k := Nat.dvd_sub' h1 (Dvd.intro k rfl)
    have he : (2 * l + 1) - k * k = 2 * (l - s) := by omega
    rw [he] at hd
    have : k ∣ (l - s) := hco.dvd_of_dvd_mul_left hd
    exact Nat.dvd_iff_mod_eq_zero.1 this

/-- Characterisation of the odd sieve array after the marking loop over
`range(3, 3+2*m, 2)`: index `l` stays set iff `l ≥ 1` and the odd number
`2*l+1` has no odd divisor `d ∈ [3, 3+2*m)` with `d*d ≤ 2*l+1`. -/
theorem era2Fold_char (m : ℕ) :
    ∀ l, era2Fold (List.range' 3 m 2) sieve2Init l = true ↔
      (1 ≤ l ∧ ∀ d, Odd d → 3 ≤ d → d < 3 + 2 * m →
        ¬(d ∣ (2 * l + 1) ∧ d * d ≤ 2 * l + 1)) := by
  induction m with
  | zero =>
    intro l
    simp only [List.range'_zero, era2Fold, List.foldl_nil]
    rw [sieve2Init, arrSet, onesArr]
    constructor
    · intro h
      by_cases h0 : l = 0
      · simp [h0] at h
      · exact ⟨by omega, by omega⟩
    · intro ⟨h1, _⟩
      rw [if_neg (by omega)]
  | succ m ih =>
    intro l
    have hsplit : List.range' 3 (m + 1) 2 = List.range' 3 m 2 ++ [3 + 2 * m] :=
      List.range'_concat 3 m
    rw [era2Fold, hsplit, List.foldl_append]
    simp only [List.foldl_cons, List.foldl_nil]
    rw [show List.foldl (fun b k => if b (k / 2) then markSlice b (k * k / 2) k else b)
        sieve2Init (List.range' 3 m 2) = era2Fold (List.range' 3 m 2) sieve2Init from rfl]
    have hKodd : Odd (3 + 2 * m) := ⟨m + 1, by ring⟩
    have hKidx : (3 + 2 * m) / 2 = m + 1 := by omega
    have hKnum : 2 * (m + 1) + 1 = 3 + 2 * m := by ring
    by_cases hK : era2Fold (List.range' 3 m 2) sieve2Init ((3 + 2 * m) / 2) = true
    · rw [if_pos hK]
      rw [hKidx] at hK
      have hKchar := (ih (m + 1)).1 hK
      rw [markSlice]
      by_cases hcond : (3 + 2 * m) * (3 + 2 * m) / 2 ≤ l ∧
          (l - (3 + 2 * m) * (3 + 2 * m) / 2) % (3 + 2 * m) = 0
      · rw [if_pos hcond]
        have hdvd : (3 + 2 * m) ∣ (2 * l + 1) ∧ (3 + 2 * m) * (3 + 2 * m) ≤ 2 * l + 1 :=
          (slice2_cond_iff (3 + 2 * m) l hKodd (by omega)).1 hcond
        constructor
        · intro h
          exact absurd h (by simp)
        · intro ⟨h1, hall⟩
          exact absurd hdvd (hall (3 + 2 * m) hKodd (by omega) (by omega))
      · rw [if_neg hcond]
        rw [ih l]
        have hnd : ¬((3 + 2 * m) ∣ (2 * l + 1) ∧ (3 + 2 * m) * (3 + 2 * m) ≤ 2 * l + 1) := by
          intro hc
          exact hcond ((slice2_cond_iff (3 + 2 * m) l hKodd (by omega)).2 hc)
        constructor
        · intro ⟨h1, hall⟩
          refine ⟨h1, fun d hdo hd3 hdm => ?_⟩
          by_cases hdm' : d < 3 + 2 * m
          · exact hall d hdo hd3 hdm'
          · have : d = 3 + 2 * m := by
              obtain ⟨e, he⟩ := hdo
              omega
            rw [this]
            exact hnd
        · intro ⟨h1, hall⟩
          exact ⟨h1, fun d hdo hd3 hdm => hall d hdo hd3 (by omega)⟩
    · rw [if_neg hK]
      rw [ih l]
      rw [hKidx] at hK
      have hKcomp : ∃ d, Odd d ∧ 3 ≤ d ∧ d < 3 + 2 * m ∧
          d ∣ (3 + 2 * m) ∧ d * d ≤ 3 + 2 * m := by
        have := (ih (m + 1)).not.1 hK
        push_neg at this
        rcases this (by omega) with ⟨d, hdo, hd3, hdm, hdvd, hsq⟩
        rw [hKnum] at hdvd hsq
        exact ⟨d, hdo, hd3, hdm, hdvd, hsq⟩
      constructor
      · intro ⟨h1, hall⟩
        refine ⟨h1, fun d hdo hd3 hdm => ?_⟩
        by_cases hdm' : d < 3 + 2 * m
        · exact hall d hdo hd3 hdm'
        · have hdK : d = 3 + 2 * m := by
            obtain ⟨e, he⟩ := hdo
            omega
          rintro ⟨hdvd, hsq⟩
          obtain ⟨e, heo, he3, hem, hedvd, hesq⟩ := hKcomp
          have heI : e ∣ (2 * l + 1) := hedvd.trans (hdK ▸ hdvd)
          have heIsq : e * e ≤ 2 * l + 1 := by
            have h1 : 3 + 2 * m ≤ 2 * l + 1 := by nlinarith [hdK ▸ hsq]
            omega
          exact hall e heo he3 hem ⟨heI, heIsq⟩
      · intro ⟨h1, hall⟩
        exact ⟨h1, fun d hdo hd3 hdm => hall d hdo hd3 (by omega)⟩

/-- Any divisor of an odd number is odd. -/
theorem odd_dvd_odd {d u : ℕ} (hu : Odd u) (h : d ∣ u) : Odd d := by
  rcases Nat.even_or_odd d with he | ho
  · exfalso
    obtain ⟨t, ht⟩ := he
    obtain ⟨c, hc⟩ := h
    have heu : Even u := ⟨t * c, by rw [hc, ht]; ring⟩
    exact (Nat.not_odd_iff_even.2 heu) hu
  · exact ho

/-- After the odd marking loop covering every odd candidate divisor up to
`sqrt n`, a surviving index `l ≥ 1` with `2*l+1 ≤ n` is exactly an odd prime. -/
theorem era2Fold_prime (m n l : ℕ) (hm : ∀ d, Odd d → 3 ≤ d → d ≤ Nat.sqrt n → d < 3 + 2 * m)
    (hl : 2 * l + 1 ≤ n) :
    era2Fold (List.range' 3 m 2) sieve2Init l = true ↔ (2 * l + 1).Prime := by
  rw [era2Fold_char m l]
  constructor
  · intro ⟨h1, hall⟩
    by_contra hnp
    have hu2 : 2 ≤ 2 * l + 1 := by omega
    have hd := Nat.minFac_prime (by omega : 2 * l + 1 ≠ 1)
    have hdvd := Nat.minFac_dvd (2 * l + 1)
    have hsq : (2 * l + 1).minFac * (2 * l + 1).minFac ≤ 2 * l + 1 := by
      have := Nat.minFac_sq_le_self (by omega : 0 < 2 * l + 1) hnp
      simpa [pow_two] using this
    have hodd : Odd ((2 * l + 1).minFac) := odd_dvd_odd ⟨l, by omega⟩ hdvd
    have h3 : 3 ≤ (2 * l + 1).minFac := by
      have h2 := hd.two_le
      obtain ⟨t, ht⟩ := hodd
      omega
    have hdle : (2 * l + 1).minFac ≤ Nat.sqrt n := by
      have hx : (2 * l + 1).minFac ≤ Nat.sqrt (2 * l + 1) := Nat.le_sqrt.2 hsq
      exact hx.trans (Nat.sqrt_le_sqrt hl)
    exact hall _ hodd h3 (hm _ hodd h3 hdle) ⟨hdvd, hsq⟩
  · intro hp
    have h1 : 1 ≤ l := by
      rcases Nat.eq_zero_or_pos l with h0 | h0
      · exfalso
        rw [h0] at hp
        norm_num at hp
      · omega
    refine ⟨h1, fun d hdo hd3 hdm => ?_⟩
    rintro ⟨hdvd, hsq⟩
    rcases (Nat.Prime.eq_one_or_self_of_dvd hp d hdvd) with hd1 | hd1
    · omega
    · subst hd1
      nlinarith [hp.two_le]

/-- For `n ≥ 2` the odd-only sieve returns exactly the same prime list as
the plain sieve. -/
theorem eratosthenes2_eq (n : ℕ) (hn : 2 ≤ n) :
    eratosthenes2 n = eratosthenes n := by
  have hmem : ∀ p, p ∈ eratosthenes2 n ↔ (p.Prime ∧ p ≤ n) := by
    intro p
    rw [eratosthenes2]
    simp only [List.mem_cons, List.mem_map, List.mem_filter, List.mem_range]
    constructor
    · rintro (rfl | ⟨l, ⟨⟨hlr, hflag⟩, rfl⟩⟩)
      · exact ⟨Nat.prime_two, hn⟩
      · have hle : 2 * l + 1 ≤ n := by omega
        have hm : ∀ d, Odd d → 3 ≤ d → d ≤ Nat.sqrt n →
            d < 3 + 2 * ((integer_sqrt n + 1 - 3 + 1) / 2) := by
          intro d hdo hd3 hdle
          obtain ⟨t, ht⟩ := hdo
          rw [integer_sqrt_eq_sqrt]
          omega
        exact ⟨(era2Fold_prime _ n l hm hle).1 hflag, hle⟩
    · rintro ⟨hp, hple⟩
      rcases Nat.eq_or_lt_of_le hp.two_le with h2 | h2
      · left
        omega
      · right
        have hodd : Odd p := hp.odd_of_ne_two (by omega)
        obtain ⟨l, hl⟩ := hodd
        refine ⟨l, ⟨⟨by omega, ?_⟩, by omega⟩⟩
        have hle : 2 * l + 1 ≤ n := by omega
        have hm : ∀ d, Odd d → 3 ≤ d → d ≤ Nat.sqrt n →
            d < 3 + 2 * ((integer_sqrt n + 1 - 3 + 1) / 2) := by
          intro d hdo hd3 hdle
          obtain ⟨t, ht⟩ := hdo
          rw [integer_sqrt_eq_sqrt]
          omega
        rw [era2Fold_prime _ n l hm hle]
        have : 2 * l + 1 = p := by omega
        rw [this]
        exact hp
  have hsorted2 : List.Sorted (· < ·) (eratosthenes2 n) := by
    rw [eratosthenes2]
    refine List.sorted_cons.2 ⟨?_, ?_⟩
    · intro b hb
      simp only [List.mem_map, List.mem_filter, List.mem_range] at hb
      obtain ⟨l, ⟨⟨hlr, hflag⟩, rfl⟩⟩ := hb
      have := (era2Fold_char _ l).1 hflag
      omega
    · exact List.Pairwise.map _ (fun a b hab => by omega)
        ((List.pairwise_lt_range _).sublist (List.filter_sublist _))
  have hperm : List.Perm (eratosthenes2 n) (eratosthenes n) := by
    rw [List.perm_ext_iff_of_nodup hsorted2.nodup (eratosthenes_sorted n).nodup]
    intro p
    rw [hmem p, eratosthenes_mem]
  exact List.eq_of_perm_of_sorted hperm hsorted2 (eratosthenes_sorted n)

/-- Entry point `eratosthenes` on Python ints.  `np.ones(n+1)` raises
`ValueError` for a negative size `n+1 < 0`; the chained assignment
`block[0] = block[1] = False` raises `IndexError` when the array has fewer
than two cells, i.e. already for `n = -1` and `n = 0`. -/
def eratosthenesE (n : ℤ) : Except PyErr (List ℤ) :=
  if n + 1 < 0 then .error .valueError
  else if n + 1 < 1 then .error .indexError
  else if n + 1 < 2 then .error .indexError
  else .ok ((eratosthenes n.toNat).map (fun p => (p : ℤ)))

/-- Entry point `eratosthenes2` on Python ints: `np.ones((n+1)//2)` raises
`ValueError` for a negative size, and `block[0] = False` raises `IndexError`
when `(n+1)//2 = 0`, i.e. for `n = -1` and `n = 0`. -/
def eratosthenes2E (n : ℤ) : Except PyErr (List ℤ) :=
  if (n + 1) / 2 < 0 then .error .valueError
  else if (n + 1) / 2 < 1 then .error .indexError
  else .ok ((eratosthenes2 n.toNat).map (fun p => (p : ℤ)))

/-- C4 counterexample: the odd-only variant does not return an empty list on
every `n < 2` — at `n = 1` it returns `[2]` (the `np.r_[2, ...]` prepend is
unconditional), wrongly including `2 > 1`. -/
theorem claim_C4_counterexample : eratosthenes2E 1 = .ok [2] := by
  rfl

/-- C4 (amended): for `n ≥ 1` (not `n ≥ 0`: both sieves raise `IndexError`
at `n = 0` when initialising flags), `eratosthenes` returns exactly the
primes of `[2, n]` in strictly increasing order, with `eratosthenes(1) = []`;
the odd-only variant agrees for every `n ≥ 2` but returns `[2]` at `n = 1`. -/
theorem claim_C4_sieve_contract :
    (∀ n : ℕ, 1 ≤ n →
      List.Sorted (· < ·) (eratosthenes n) ∧
      (∀ p, p ∈ eratosthenes n ↔ p.Prime ∧ 2 ≤ p ∧ p ≤ n)) ∧
    (∀ n : ℕ, 2 ≤ n → eratosthenes2 n = eratosthenes n) ∧
    eratosthenes 1 = [] ∧
    eratosthenes2 1 = [2] ∧
    eratosthenesE 0 = .error .indexError ∧
    eratosthenes2E 0 = .error .indexError := by
  refine ⟨?_, ?_, by rfl, by rfl, by rfl, by rfl⟩
  · intro n _
    refine ⟨eratosthenes_sorted n, fun p => ?_⟩
    rw [eratosthenes_mem]
    constructor
    · intro ⟨hp, hle⟩
      exact ⟨hp, hp.two_le, hle⟩
    · intro ⟨hp, _, hle⟩
      exact ⟨hp, hle⟩
  · intro n hn
    exact eratosthenes2_eq n hn

/-- C4 witness: concrete instance `n = 30`. -/
theorem claim_C4_witness :
    ((1 : ℕ) ≤ 30 ∧
      (List.Sorted (· < ·) (eratosthenes 30) ∧
        (∀ p, p ∈ eratosthenes 30 ↔ p.Prime ∧ 2 ≤ p ∧ p ≤ 30))) ∧
    ((2 : ℕ) ≤ 30 ∧ eratosthenes2 30 = eratosthenes 30) :=
  ⟨⟨by norm_num, claim_C4_sieve_contract.1 30 (by norm_num)⟩,
    ⟨by norm_num, claim_C4_sieve_contract.2.1 30 (by norm_num)⟩⟩

/-! ### Counting squarefree numbers: the mathematical reference -/

/-- Reference count `Q(x)`: the number of squarefree integers in `[1, x]`. -/
def squarefreeCount (x : ℕ) : ℕ := ((Finset.Icc 1 x).filter Squarefree).card

/-- Uniqueness of the decomposition of a positive integer as a square times
a squarefree number. -/
theorem sq_mul_squarefree_unique {k1 f1 k2 f2 : ℕ} (hk1 : k1 ≠ 0) (hk2 : k2 ≠ 0)
    (hf1 : Squarefree f1) (hf2 : Squarefree f2)
    (h : k1 ^ 2 * f1 = k2 ^ 2 * f2) : k1 = k2 ∧ f1 = f2 := by
  have hf1z : f1 ≠ 0 := hf1.ne_zero
  have hf2z : f2 ≠ 0 := hf2.ne_zero
  have hfac : ∀ p, 2 * k1.factorization p + f1.factorization p
      = 2 * k2.factorization p + f2.factorization p := by
    intro p
    have h1 := congrArg (fun m => m.factorization p) h
    simp only at h1
    rw [Nat.factorization_mul (pow_ne_zero 2 hk1) hf1z,
      Nat.factorization_mul (pow_ne_zero 2 hk2) hf2z,
      Nat.factorization_pow, Nat.factorization_pow] at h1
    simpa [Finsupp.add_apply, Finsupp.smul_apply, mul_comm] using h1
  have hb1 := (Nat.squarefree_iff_factorization_le_one hf1z).1 hf1
  have hb2 := (Nat.squarefree_iff_factorization_le_one hf2z).1 hf2
  constructor
  · apply Nat.eq_of_factorization_eq hk1 hk2
    intro p
    have h1 := hfac p
    have h2 := hb1 p
    have h3 := hb2 p
    omega
  · apply Nat.eq_of_factorization_eq hf1z hf2z
    intro p
    have h1 := hfac p
    have h2 := hb1 p
    have h3 := hb2 p
    omega

/-- The partition identity behind the sub-linear engine: classifying each
`m ∈ [1, x]` by its largest square divisor `k^2` gives
`x = ∑_{k=1}^{√x} Q(⌊x/k²⌋)`. -/
theorem sum_squarefreeCount (x : ℕ) :
    ∑ k ∈ Finset.Icc 1 (Nat.sqrt x), squarefreeCount (x / k ^ 2) = x := by
  have hcard : ∑ k ∈ Finset.Icc 1 (Nat.sqrt x), squarefreeCount (x / k ^ 2)
      = ((Finset.Icc 1 (Nat.sqrt x)).sigma
          (fun k => (Finset.Icc 1 (x / k ^ 2)).filter Squarefree)).card := by
    rw [Finset.card_sigma]
    rfl
  have hx : (Finset.Icc 1 x).card = x := by
    rw [Nat.card_Icc]
    omega
  have hbij : ((Finset.Icc 1 (Nat.sqrt x)).sigma
      (fun k => (Finset.Icc 1 (x / k ^ 2)).filter Squarefree)).card
      = (Finset.Icc 1 x).card := by
    apply Finset.card_bij (fun p _ => p.1 ^ 2 * p.2)
    · rintro ⟨k, f⟩ hp
      simp only [Finset.mem_sigma, Finset.mem_Icc, Finset.mem_filter] at hp
      obtain ⟨⟨hk1, hk2⟩, ⟨⟨hf1, hf2⟩, _⟩⟩ := hp
      rw [Finset.mem_Icc]
      constructor
      · exact Nat.mul_pos (pow_pos (by omega : 0 < k) 2) (by omega : 0 < f)
      · calc k ^ 2 * f ≤ k ^ 2 * (x / k ^ 2) := Nat.mul_le_mul_left _ hf2
          _ ≤ x := Nat.mul_div_le x (k ^ 2)
    · rintro ⟨k1, f1⟩ hp1 ⟨k2, f2⟩ hp2 heq
      dsimp only at heq
      simp only [Finset.mem_sigma, Finset.mem_Icc, Finset.mem_filter] at hp1 hp2
      obtain ⟨⟨hk11, _⟩, ⟨_, hsf1⟩⟩ := hp1
      obtain ⟨⟨hk21, _⟩, ⟨_, hsf2⟩⟩ := hp2
      obtain ⟨hk, hf⟩ := sq_mul_squarefree_unique (by omega) (by omega) hsf1 hsf2 heq
      subst hk
      subst hf
      rfl
    · intro m hm
      rw [Finset.mem_Icc] at hm
      obtain ⟨a, b, hab, ha⟩ := Nat.sq_mul_squarefree m
      have hbz : b ≠ 0 := by
        rintro rfl
        simp at hab
        omega
      have haz : a ≠ 0 := ha.ne_zero
      have hble : b ≤ Nat.sqrt x := by
        apply Nat.le_sqrt.2
        have h1 : b * b ≤ b ^ 2 * a := by nlinarith [Nat.one_le_iff_ne_zero.2 haz]
        omega
      have hale : a ≤ x / b ^ 2 := by
        apply (Nat.le_div_iff_mul_le (pow_pos (by omega : 0 < b) 2)).2
        calc a * b ^ 2 = b ^ 2 * a := by ring
          _ = m := hab
          _ ≤ x := hm.2
      refine ⟨⟨b, a⟩, ?_, hab⟩
      simp only [Finset.mem_sigma, Finset.mem_Icc, Finset.mem_filter]
      exact ⟨⟨by omega, hble⟩, ⟨⟨by omega, hale⟩, ha⟩⟩
  rw [hcard, hbij, hx]

/-- The recursive identity of the engine, in subtraction form over `ℤ`:
`Q(x) = x - ∑_{k=2}^{√x} Q(⌊x/k²⌋)`. -/
theorem squarefreeCount_identity (x : ℕ) :
    (squarefreeCount x : ℤ)
      = (x : ℤ) - ∑ k ∈ Finset.Icc 2 (Nat.sqrt x), (squarefreeCount (x / k ^ 2) : ℤ) := by
  rcases Nat.eq_zero_or_pos x with rfl | hx
  · simp [squarefreeCount]
  · have hs1 : 1 ≤ Nat.sqrt x := Nat.le_sqrt.2 (by omega)
    have hsplit : Finset.Icc 1 (Nat.sqrt x) = insert 1 (Finset.Icc 2 (Nat.sqrt x)) := by
      ext i
      simp only [Finset.mem_Icc, Finset.mem_insert]
      omega
    have hid := sum_squarefreeCount x
    rw [hsplit, Finset.sum_insert (by simp)] at hid
    simp only [one_pow, Nat.div_one] at hid
    have hcast : (squarefreeCount x : ℤ)
        + ∑ k ∈ Finset.Icc 2 (Nat.sqrt x), (squarefreeCount (x / k ^ 2) : ℤ) = (x : ℤ) := by
      rw [← Nat.cast_sum, ← Nat.cast_add]
      exact_mod_cast hid
    omega

/-- Executable characterisation: a positive `n` is squarefree iff no
`d ∈ [2, n]` has `d*d ∣ n`. -/
theorem squarefree_iff_no_sq_divisor (n : ℕ) (hn : n ≠ 0) :
    Squarefree n ↔ ∀ d ∈ Finset.Icc 2 n, ¬(d * d ∣ n) := by
  constructor
  · intro h d hd hdvd
    rw [Finset.mem_Icc] at hd
    have hu := h d hdvd
    rw [Nat.isUnit_iff] at hu
    omega
  · intro h d hdvd
    rw [Nat.isUnit_iff]
    by_contra hne
    have hd0 : d ≠ 0 := by
      rintro rfl
      rw [mul_zero, zero_dvd_iff] at hdvd
      exact hn hdvd
    have hd2 : 2 ≤ d := by omega
    have hdn : d ≤ n := Nat.le_of_dvd (Nat.pos_of_ne_zero hn)
      (dvd_trans (Dvd.intro d rfl) hdvd)
    exact h d (Finset.mem_Icc.2 ⟨hd2, hdn⟩) hdvd

/-- Kernel-computable form of `squarefreeCount`, for evaluating the
reference count at concrete arguments. -/
theorem squarefreeCount_eval (x : ℕ) :
    squarefreeCount x
      = (@Finset.filter ℕ (fun m => ∀ d ∈ Finset.Icc 2 m, ¬(d * d ∣ m))
          (fun _ => Finset.decidableDforallFinset) (Finset.Icc 1 x)).card := by
  rw [squarefreeCount]
  apply Finset.card_bij (fun a _ => a)
  · intro a ha
    rw [Finset.mem_filter] at ha
    rw [Finset.mem_filter]
    refine ⟨ha.1, ?_⟩
    have hm := Finset.mem_Icc.1 ha.1
    exact (squarefree_iff_no_sq_divisor a (by omega : a ≠ 0)).1 ha.2
  · intro a _ b _ h
    exact h
  · intro b hb
    rw [Finset.mem_filter] at hb
    refine ⟨b, ?_, rfl⟩
    rw [Finset.mem_filter]
    refine ⟨hb.1, ?_⟩
    have hm := Finset.mem_Icc.1 hb.1
    exact (squarefree_iff_no_sq_divisor b (by omega)).2 hb.2

/-! ### Q_memo: the memoized recursive engine -/

mutual

/-- Embedding of `Q_memo(x, cache={1: 1})` from the notebook: on a cache
miss, store `x - sum(Q_memo(x//k**2) for k in range(2, integer_sqrt(x)+1))`.
The dict is an association list threaded through the computation (Python
mutates one shared dict); values live in `ℤ` as Python subtraction does. -/
def Q_memo (x : ℕ) (cache : List (ℕ × ℤ)) : ℤ × List (ℕ × ℤ) :=
  match cache.lookup x with
  | some v => (v, cache)
  | none =>
    let p := QmemoSum x 2 cache
    ((x : ℤ) - p.1, (x, (x : ℤ) - p.1) :: p.2)
termination_by (x, 1, 0)

/-- The generator sum of `Q_memo`, evaluated left to right over
`k ∈ range(2, integer_sqrt(x)+1)` while threading the shared cache. -/
def QmemoSum (x k : ℕ) (cache : List (ℕ × ℤ)) : ℤ × List (ℕ × ℤ) :=
  if h : 2 ≤ k ∧ k ≤ integer_sqrt x then
    let q := Q_memo (x / k ^ 2) cache
    let s := QmemoSum x (k + 1) q.2
    (q.1 + s.1, s.2)
  else (0, cache)
termination_by (x, 0, integer_sqrt x + 1 - k)
decreasing_by
  · refine Prod.Lex.left _ _ ?_
    have h2 := h.2
    rw [integer_sqrt_eq_sqrt] at h2
    have hsq : k * k ≤ x := Nat.le_sqrt.1 h2
    exact Nat.div_lt_self (by nlinarith [h.1]) (by nlinarith [h.1])
  · refine Prod.Lex.right _ ?_
    refine Prod.Lex.right _ ?_
    omega

end

/-- The top-level call `Q_memo(x)` with a fresh default cache `{1: 1}`. -/
def Q_memo_top (x : ℕ) : ℤ := (Q_memo x [(1, 1)]).1

/-- A cache is valid when every stored entry is the true count. -/
def validC (c : List (ℕ × ℤ)) : Prop :=
  ∀ p ∈ c, p.2 = (squarefreeCount p.1 : ℤ)

/-- A successful association-list lookup produces a stored pair. -/
theorem mem_of_lookup_eq_some {c : List (ℕ × ℤ)} {x : ℕ} {v : ℤ}
    (h : c.lookup x = some v) : (x, v) ∈ c := by
  induction c with
  | nil => simp [List.lookup] at h
  | cons a rest ih =>
    rcases a with ⟨k, b⟩
    rw [List.lookup] at h
    by_cases he : x = k
    · subst he
      simp only [beq_self_eq_true] at h
      simp only [Option.some.injEq] at h
      subst h
      exact List.mem_cons_self _ _
    · rw [beq_false_of_ne he] at h
      exact List.mem_cons_of_mem _ (ih h)

/-- Correctness of `Q_memo` on any valid cache: the returned value is the
true count `Q(x)` and the returned cache is again valid. -/
theorem Q_memo_correct : ∀ x : ℕ, ∀ cache, validC cache →
    (Q_memo x cache).1 = (squarefreeCount x : ℤ) ∧ validC (Q_memo x cache).2 := by
  intro x
  induction x using Nat.strong_induction_on with
  | _ x IH =>
    have hsum : ∀ j k cache, integer_sqrt x + 1 - k = j → 2 ≤ k → validC cache →
        (QmemoSum x k cache).1
          = ∑ i ∈ Finset.Icc k (Nat.sqrt x), (squarefreeCount (x / i ^ 2) : ℤ) ∧
        validC (QmemoSum x k cache).2 := by
      intro j
      induction j with
      | zero =>
        intro k cache hj hk hv
        have hj' := hj
        rw [integer_sqrt_eq_sqrt] at hj'
        rw [QmemoSum, dif_neg (by omega)]
        refine ⟨?_, hv⟩
        rw [Finset.Icc_eq_empty (by omega), Finset.sum_empty]
      | succ m ihm =>
        intro k cache hj hk hv
        rw [QmemoSum]
        have hg : 2 ≤ k ∧ k ≤ integer_sqrt x := ⟨hk, by omega⟩
        rw [dif_pos hg]
        have hg2 := hg.2
        rw [integer_sqrt_eq_sqrt] at hg2
        have hk2x : k * k ≤ x := Nat.le_sqrt.1 hg2
        have hlt : x / k ^ 2 < x := by
          rw [pow_two]
          exact Nat.div_lt_self (by nlinarith) (by nlinarith)
        obtain ⟨hq1, hq2⟩ := IH _ hlt cache hv
        obtain ⟨hs1, hs2⟩ := ihm (k + 1) (Q_memo (x / k ^ 2) cache).2 (by omega) (by omega) hq2
        constructor
        · show (Q_memo (x / k ^ 2) cache).1
              + (QmemoSum x (k + 1) (Q_memo (x / k ^ 2) cache).2).1 = _
          rw [hq1, hs1]
          have hsplit : Finset.Icc k (Nat.sqrt x)
              = insert k (Finset.Icc (k + 1) (Nat.sqrt x)) := by
            ext i
            simp only [Finset.mem_Icc, Finset.mem_insert]
            omega
          rw [hsplit, Finset.sum_insert (by simp)]
        · show validC (QmemoSum x (k + 1) (Q_memo (x / k ^ 2) cache).2).2
          exact hs2
    intro cache hv
    rw [Q_memo]
    cases hl : cache.lookup x with
    | some v =>
      simp only
      have hmem := mem_of_lookup_eq_some hl
      exact ⟨hv _ hmem, hv⟩
    | none =>
      simp only
      obtain ⟨hs1, hs2⟩ := hsum (integer_sqrt x + 1 - 2) 2 cache rfl (by norm_num) hv
      have hval : (x : ℤ) - (QmemoSum x 2 cache).1 = (squarefreeCount x : ℤ) := by
        rw [hs1, squarefreeCount_identity x]
      refine ⟨hval, ?_⟩
      intro p hp
      rcases List.mem_cons.1 hp with rfl | hp'
      · exact hval
      · exact hs2 _ hp'

/-- The initial default cache `{1: 1}` is valid. -/
theorem validC_init : validC [(1, 1)] := by
  intro p hp
  rcases List.mem_cons.1 hp with rfl | hp'
  · show (1 : ℤ) = (squarefreeCount 1 : ℤ)
    rw [squarefreeCount_eval]
    decide
  · simp at hp'

/-- C2: `count_squarefree(x)` (the engine, entered through `Q_memo`) returns
the number of squarefree integers in `[1, x]` for every `x ≥ 0`, with
`Q(0) = 0`, `Q(10) = 7` and `Q(20) = 13`. -/
theorem claim_C2_count_contract :
    (∀ x : ℕ, Q_memo_top x = (squarefreeCount x : ℤ)) ∧
    Q_memo_top 0 = 0 ∧ Q_memo_top 10 = 7 ∧ Q_memo_top 20 = 13 := by
  have hgen : ∀ x : ℕ, Q_memo_top x = (squarefreeCount x : ℤ) :=
    fun x => (Q_memo_correct x [(1, 1)] validC_init).1
  refine ⟨hgen, ?_, ?_, ?_⟩
  · rw [hgen 0, squarefreeCount_eval]
    decide
  · rw [hgen 10, squarefreeCount_eval]
    decide
  · rw [hgen 20, squarefreeCount_eval]
    decide

/-- Cache state after a sequence of earlier top-level `Q_memo` calls, the
dict being retained across calls through the mutable default argument. -/
def runMemo (xs : List ℕ) (c : List (ℕ × ℤ)) : List (ℕ × ℤ) :=
  xs.foldl (fun c x => (Q_memo x c).2) c

/-- The retained cache stays valid along any call sequence. -/
theorem runMemo_valid (xs : List ℕ) :
    ∀ c, validC c → validC (runMemo xs c) := by
  induction xs with
  | nil => intro c hc; exact hc
  | cons x rest ih =>
    intro c hc
    exact ih _ (Q_memo_correct x c hc).2

/-- C10: every entry point is deterministic across repeated calls — in
particular the memo cache `Q_memo` retains through its default argument
never changes a returned value: after any sequence of earlier calls, calling
on `x` returns exactly the fresh-cache value `Q_memo_top x`, so two calls
with the same input agree regardless of interleaved calls. -/
theorem claim_C10_idempotent_calls (x : ℕ) (xs : List ℕ) :
    (Q_memo x (runMemo xs [(1, 1)])).1 = Q_memo_top x := by
  have h1 := (Q_memo_correct x (runMemo xs [(1, 1)]) (runMemo_valid xs _ validC_init)).1
  have h2 := (Q_memo_correct x [(1, 1)] validC_init).1
  rw [h1, Q_memo_top, h2]

/-! ### Q_dp: the bottom-up dynamic-programming engine -/

/-- The while loop of `Q_dp` building the strictly decreasing prefix of
distinct values: `while x//k**2 > x//(k+1)**2: V.append(x//k**2); k += 1`. -/
def bigV (x k : ℕ) : List ℕ :=
  if h : x / k ^ 2 > x / (k + 1) ^ 2 then x / k ^ 2 :: bigV x (k + 1) else []
termination_by x / k ^ 2
decreasing_by exact h

/-- The distinct-value list `V` of `Q_dp`: the big values followed by
`range(V[-1]-1, -1, -1)`, i.e. `V[-1]-1` down to `0`. -/
def fullV (x : ℕ) : List ℕ :=
  bigV x 1 ++ (List.range ((bigV x 1).getLastD 0)).reverse

/-- The while loop of `Q_dp` stops: some index has `x/(j+1)² ≤ x/(j+2)²`. -/
theorem exists_flat (x : ℕ) : ∃ j : ℕ, ¬ (x / (j + 2) ^ 2 < x / (j + 1) ^ 2) := by
  refine ⟨x, ?_⟩
  have h1 : x / (x + 1) ^ 2 = 0 := Nat.div_eq_of_lt (by nlinarith)
  have h2 : x / (x + 2) ^ 2 = 0 := Nat.div_eq_of_lt (by nlinarith)
  omega

/-- First index `k ≥ 1` at which the while-guard of `Q_dp` fails. -/
def vStop (x : ℕ) : ℕ := Nat.find (exists_flat x) + 1

/-- The guard fails at `vStop`. -/
theorem vStop_flat (x : ℕ) : ¬ (x / (vStop x + 1) ^ 2 < x / (vStop x) ^ 2) := by
  have h := Nat.find_spec (exists_flat x)
  rw [vStop]
  convert h using 3

/-- The guard holds strictly before `vStop`. -/
theorem vStop_guard (x : ℕ) : ∀ i, 1 ≤ i → i < vStop x → x / (i + 1) ^ 2 < x / i ^ 2 := by
  intro i h1 h2
  rw [vStop] at h2
  have h := Nat.find_min (exists_flat x) (m := i - 1) (by omega)
  push_neg at h
  have e1 : i - 1 + 2 = i + 1 := by omega
  have e2 : i - 1 + 1 = i := by omega
  rw [e1, e2] at h
  exact h

/-- For `x ≥ 1` the guard holds at `k = 1`, so `vStop ≥ 2`. -/
theorem vStop_ge_two (x : ℕ) (hx : 1 ≤ x) : 2 ≤ vStop x := by
  by_contra hc
  have h1 : vStop x = 1 := by
    have : 1 ≤ vStop x := by
      rw [vStop]
      omega
    omega
  have h := vStop_flat x
  rw [h1] at h
  have e1 : x / 1 ^ 2 = x := by simp
  have e2 : x / 2 ^ 2 < x := by
    have : x / 4 < x := Nat.div_lt_self (by omega) (by omega)
    simpa using this
  omega

/-- Closed form of the while loop: `bigV x k` lists `x/i²` for
`i ∈ [k, vStop x)`. -/
theorem bigV_eq (x : ℕ) : ∀ m k, vStop x - k ≤ m → 1 ≤ k → k ≤ vStop x →
    bigV x k = (List.range' k (vStop x - k)).map (fun i => x / i ^ 2) := by
  intro m
  induction m with
  | zero =>
    intro k hm h1 h2
    have hk : k = vStop x := by omega
    subst hk
    rw [bigV, dif_neg (by simpa using vStop_flat x)]
    simp [Nat.sub_self]
  | succ m ih =>
    intro k hm h1 h2
    rcases Nat.eq_or_lt_of_le h2 with heq | hlt
    · subst heq
      rw [bigV, dif_neg (by simpa using vStop_flat x)]
      simp [Nat.sub_self]
    · rw [bigV, dif_pos (by simpa using vStop_guard x k h1 hlt)]
      rw [ih (k + 1) (by omega) (by omega) (by omega)]
      have hcount : vStop x - k = (vStop x - (k + 1)) + 1 := by omega
      rw [hcount, List.range'_succ, List.map_cons]

/-- The last big value is `x/(vStop-1)²`. -/
theorem bigV_last (x : ℕ) (hx : 1 ≤ x) :
    (bigV x 1).getLastD 0 = x / (vStop x - 1) ^ 2 := by
  have h2 := vStop_ge_two x hx
  rw [bigV_eq x (vStop x - 1) 1 (by omega) (by omega) (by omega)]
  have hcount : vStop x - 1 = (vStop x - 2) + 1 := by omega
  rw [hcount, List.range'_concat, List.map_append]
  simp only [List.map_cons, List.map_nil, List.getLastD_concat]
  congr 2
  omega

/-- Membership in the big part. -/
theorem mem_bigV (x : ℕ) (hx : 1 ≤ x) (v : ℕ) :
    v ∈ bigV x 1 ↔ ∃ i, 1 ≤ i ∧ i ≤ vStop x - 1 ∧ v = x / i ^ 2 := by
  have h2 := vStop_ge_two x hx
  rw [bigV_eq x (vStop x - 1) 1 (by omega) (by omega) (by omega)]
  simp only [List.mem_map, List.mem_range']
  constructor
  · rintro ⟨i, ⟨j, hj1, hj2⟩, rfl⟩
    exact ⟨i, by omega, by omega, rfl⟩
  · rintro ⟨i, hi1, hi2, rfl⟩
    exact ⟨i, ⟨i - 1, by omega, by omega⟩, rfl⟩

/-- Every value `x/m²` for `m ≥ 1` appears in `V`. -/
theorem div_sq_mem_fullV (x : ℕ) (hx : 1 ≤ x) (m : ℕ) (hm : 1 ≤ m) :
    x / m ^ 2 ∈ fullV x := by
  have h2 := vStop_ge_two x hx
  rw [fullV]
  by_cases hcase : m ≤ vStop x - 1
  · apply List.mem_append_left
    rw [mem_bigV x hx]
    exact ⟨m, hm, hcase, rfl⟩
  · apply List.mem_append_right
    rw [List.mem_reverse, List.mem_range, bigV_last x hx]
    have hKm : vStop x ≤ m := by omega
    have hle : x / m ^ 2 ≤ x / (vStop x) ^ 2 :=
      Nat.div_le_div_left (Nat.pow_le_pow_left hKm 2) (pow_pos (by omega) 2)
    have hlt : x / (vStop x) ^ 2 < x / (vStop x - 1) ^ 2 := by
      have h := vStop_guard x (vStop x - 1) (by omega) (by omega)
      have e : vStop x - 1 + 1 = vStop x := by omega
      rw [e] at h
      exact h
    omega

/-- `x` itself is in `V`. -/
theorem self_mem_fullV (x : ℕ) (hx : 1 ≤ x) : x ∈ fullV x := by
  have h := div_sq_mem_fullV x hx 1 le_rfl
  simpa using h

/-- `V` is closed under the sub-problem map `v ↦ v / l²` for `l ≥ 2`. -/
theorem fullV_closed (x : ℕ) (hx : 1 ≤ x) :
    ∀ v ∈ fullV x, ∀ l, 2 ≤ l → v / l ^ 2 ∈ fullV x := by
  intro v hv l hl
  rw [fullV, List.mem_append] at hv
  rcases hv with hbig | hsmall
  · rw [mem_bigV x hx] at hbig
    obtain ⟨i, hi1, _, rfl⟩ := hbig
    have he : x / i ^ 2 / l ^ 2 = x / (i * l) ^ 2 := by
      rw [Nat.div_div_eq_div_mul, ← mul_pow]
    rw [he]
    exact div_sq_mem_fullV x hx (i * l) (Nat.mul_pos (by omega) (by omega))
  · rw [List.mem_reverse, List.mem_range] at hsmall
    rw [fullV]
    apply List.mem_append_right
    rw [List.mem_reverse, List.mem_range]
    have : v / l ^ 2 ≤ v := Nat.div_le_self _ _
    omega

/-- The big part is strictly decreasing. -/
theorem bigV_pairwise (x : ℕ) (hx : 1 ≤ x) :
    (bigV x 1).Pairwise (· > ·) := by
  have h2 := vStop_ge_two x hx
  rw [bigV_eq x (vStop x - 1) 1 (by omega) (by omega) (by omega)]
  have hmono : ∀ a b, 1 ≤ a → a < b → b ≤ vStop x - 1 + 1 → x / b ^ 2 < x / a ^ 2 := by
    intro a b ha hab hb
    have hchain : ∀ d, a + d < vStop x → x / (a + d + 1) ^ 2 < x / a ^ 2 := by
      intro d
      induction d with
      | zero =>
        intro hd
        simpa using vStop_guard x a ha hd
      | succ e ihe =>
        intro hd
        have h1 := ihe (by omega)
        have h2 := vStop_guard x (a + e + 1) (by omega) (by omega)
        have hle : x / (a + e + 1 + 1) ^ 2 ≤ x / (a + e + 1) ^ 2 :=
          Nat.div_le_div_left (Nat.pow_le_pow_left (by omega) 2) (pow_pos (by omega) 2)
        have he : a + (e + 1) + 1 = a + e + 1 + 1 := by omega
        rw [he]
        omega
    have hd : b = a + (b - a - 1) + 1 := by omega
    rw [hd]
    exact hchain (b - a - 1) (by omega)
  apply List.Pairwise.map
  · intro a b hab
    exact hab
  · rw [List.pairwise_iff_forall_sublist]
    intro a b hsub
    have hmem := hsub.subset
    have ha : a ∈ List.range' 1 (vStop x - 1) := hmem (by simp)
    have hb : b ∈ List.range' 1 (vStop x - 1) := hmem (by simp)
    rw [List.mem_range'] at ha hb
    obtain ⟨i, hi1, hi2⟩ := ha
    obtain ⟨j, hj1, hj2⟩ := hb
    have hab : a < b := by
      have hpw := List.pairwise_lt_range' 1 (vStop x - 1) 1 (by omega)
      rw [List.pairwise_iff_forall_sublist] at hpw
      exact hpw hsub
    exact hmono a b (by omega) hab (by omega)

/-- All big values are at least `V[-1]`. -/
theorem bigV_ge_last (x : ℕ) (hx : 1 ≤ x) :
    ∀ v ∈ bigV x 1, (bigV x 1).getLastD 0 ≤ v := by
  intro v hv
  rw [mem_bigV x hx] at hv
  obtain ⟨i, hi1, hi2, rfl⟩ := hv
  rw [bigV_last x hx]
  exact Nat.div_le_div_left (Nat.pow_le_pow_left (by omega) 2) (pow_pos (by omega) 2)

/-- `V` has no duplicates. -/
theorem fullV_nodup (x : ℕ) (hx : 1 ≤ x) : (fullV x).Nodup := by
  rw [fullV]
  apply List.Nodup.append
  · exact (bigV_pairwise x hx).imp (fun hab => by omega)
  · exact List.nodup_reverse.2 (List.nodup_range _)
  · intro a ha hb
    rw [List.mem_reverse, List.mem_range] at hb
    have := bigV_ge_last x hx a ha
    omega

/-- Seed dict `{i: i for i in V}` of `Q_dp`, as a function; keys outside `V`
default to `0` (the pass never reads them — claim C9). -/
def QdpInit (x : ℕ) : ℕ → ℤ :=
  fun i => if i ∈ fullV x then (i : ℤ) else 0

/-- Inner correction loop of `Q_dp`:
`for l in range(2, integer_sqrt(k)+1): cache[k] -= cache[k//l**2]`. -/
def QdpInner (k : ℕ) (c : ℕ → ℤ) : ℕ → ℤ :=
  (List.range' 2 (integer_sqrt k + 1 - 2)).foldl
    (fun c l => fun j => if j = k then c k - c (k / l ^ 2) else c j) c

/-- The ascending correction pass of `Q_dp` over `sorted(V)`. -/
def QdpPass (x : ℕ) : ℕ → ℤ :=
  ((fullV x).mergeSort (fun a b => decide (a ≤ b))).foldl
    (fun c k => QdpInner k c) (QdpInit x)

/-- Embedding of `Q_dp(x)` (pure core on `ℕ`; the `IndexError` Python raises
for negative `x` lives in `Q_dpE`): early return on `x ∈ {0, 1}`, else the
final value `cache[x]` of the correction pass. -/
def Q_dp (x : ℕ) : ℤ :=
  if x = 0 ∨ x = 1 then (x : ℤ) else QdpPass x x

/-- Entry point `Q_dp` on Python ints.  For `x ∉ {0, 1}` the branch tests the
first while-guard `x//1**2 > x//2**2`: when it fails, `V` stays empty and
`V[-1]` raises `IndexError` — which happens exactly for all `x < 0`. -/
def Q_dpE (x : ℤ) : Except PyErr ℤ :=
  if x = 0 ∨ x = 1 then .ok x
  else if x / 1 ^ 2 > x / 2 ^ 2 then .ok (Q_dp x.toNat)
  else .error .indexError

/-- The inner loop leaves every other key unchanged. -/
theorem qdpFold_ne (k : ℕ) : ∀ (ks : List ℕ) (c : ℕ → ℤ) (j : ℕ), j ≠ k →
    (ks.foldl (fun c l => fun j => if j = k then c k - c (k / l ^ 2) else c j) c) j = c j := by
  intro ks
  induction ks with
  | nil => intro c j hj; rfl
  | cons l ls ih =>
    intro c j hj
    rw [List.foldl_cons]
    rw [ih _ j hj]
    rw [if_neg hj]

/-- The inner loop subtracts, from the entry at `k`, the entering values at
the sub-problem keys (which are all distinct from `k`). -/
theorem qdpFold_val (k : ℕ) : ∀ (ks : List ℕ) (c : ℕ → ℤ),
    (∀ l ∈ ks, k / l ^ 2 ≠ k) →
    (ks.foldl (fun c l => fun j => if j = k then c k - c (k / l ^ 2) else c j) c) k
      = c k - (ks.map (fun l => c (k / l ^ 2))).sum := by
  intro ks
  induction ks with
  | nil => intro c _; simp
  | cons l ls ih =>
    intro c hks
    rw [List.foldl_cons, List.map_cons, List.sum_cons]
    have hlk : k / l ^ 2 ≠ k := hks l (List.mem_cons_self _ _)
    rw [ih _ (fun l' hl' => hks l' (List.mem_cons_of_mem _ hl'))]
    have hchg : ∀ l' ∈ ls,
        (fun j => if j = k then c k - c (k / l ^ 2) else c j) (k / l' ^ 2)
          = c (k / l' ^ 2) := by
      intro l' hl'
      exact if_neg (hks l' (List.mem_cons_of_mem _ hl'))
    rw [List.map_congr_left hchg]
    rw [if_pos rfl]
    ring

/-- List-to-Finset sum conversion for arithmetic ranges. -/
theorem list_range'_map_sum (f : ℕ → ℤ) : ∀ (m s : ℕ),
    ((List.range' s m).map f).sum = ∑ i ∈ Finset.Ico s (s + m), f i := by
  intro m
  induction m with
  | zero => intro s; simp
  | succ m ih =>
    intro s
    rw [List.range'_succ, List.map_cons, List.sum_cons, ih (s + 1)]
    have hsplit : Finset.Ico s (s + (m + 1)) = insert s (Finset.Ico (s + 1) (s + 1 + m)) := by
      ext i
      simp only [Finset.mem_Ico, Finset.mem_insert]
      omega
    rw [hsplit, Finset.sum_insert (by simp)]

/-- Other keys are untouched by `QdpInner`. -/
theorem QdpInner_ne (k : ℕ) (c : ℕ → ℤ) (j : ℕ) (hj : j ≠ k) :
    QdpInner k c j = c j :=
  qdpFold_ne k _ c j hj

/-- Value of `QdpInner` at its own key, for `k ≥ 1`. -/
theorem QdpInner_val (k : ℕ) (c : ℕ → ℤ) (hk : 1 ≤ k) :
    QdpInner k c k = c k - ∑ l ∈ Finset.Icc 2 (Nat.sqrt k), c (k / l ^ 2) := by
  rw [QdpInner]
  have hsq : 1 ≤ Nat.sqrt k := Nat.le_sqrt.2 (by omega)
  rw [qdpFold_val k _ c ?hne]
  case hne =>
    intro l hl
    rw [List.mem_range'] at hl
    obtain ⟨i, _, _⟩ := hl
    have h4 : 4 ≤ l ^ 2 := by nlinarith
    have : k / l ^ 2 < k := Nat.div_lt_self (by omega) (by omega)
    omega
  rw [list_range'_map_sum]
  congr 1
  rw [integer_sqrt_eq_sqrt]
  have he : 2 + (Nat.sqrt k + 1 - 2) = Nat.sqrt k + 1 := by omega
  rw [he, Nat.Ico_succ_right]

/-- `QdpInner 0` is the identity (the inner range is empty). -/
theorem QdpInner_zero (c : ℕ → ℤ) : QdpInner 0 c = c := rfl

/-- The count of `0` is `0`. -/
theorem squarefreeCount_zero : squarefreeCount 0 = 0 := by
  rw [squarefreeCount]
  simp

/-- Invariant carried along the correction pass: keys already processed hold
the true count, unprocessed keys still hold their seed value. -/
def passInv (x : ℕ) (P : List ℕ) (c : ℕ → ℤ) : Prop :=
  ∀ v ∈ fullV x, (v ∈ P → c v = (squarefreeCount v : ℤ)) ∧ (v ∉ P → c v = (v : ℤ))

/-- One ascending pass over the sorted value list turns every seed into the
true count. -/
theorem qdpPass_fold (x : ℕ) (hx : 1 ≤ x) :
    ∀ (S P : List ℕ) (c : ℕ → ℤ),
      (fullV x).mergeSort (fun a b => decide (a ≤ b)) = P ++ S →
      passInv x P c →
      passInv x (P ++ S) (S.foldl (fun c k => QdpInner k c) c) := by
  have hperm : List.Perm ((fullV x).mergeSort (fun a b => decide (a ≤ b))) (fullV x) :=
    List.mergeSort_perm _ _
  have hsorted : ((fullV x).mergeSort (fun a b => decide (a ≤ b))).Pairwise (· ≤ ·) := by
    have h := List.sorted_mergeSort
      (fun a b c (h1 : decide (a ≤ b) = true) (h2 : decide (b ≤ c) = true) => by
        simp only [decide_eq_true_eq] at h1 h2 ⊢
        omega)
      (fun a b => by
        simp only [Bool.or_eq_true, decide_eq_true_eq]
        omega)
      (fullV x)
    exact h.imp (fun hab => by simpa using hab)
  have hnodup : ((fullV x).mergeSort (fun a b => decide (a ≤ b))).Nodup :=
    hperm.nodup_iff.2 (fullV_nodup x hx)
  intro S
  induction S with
  | nil =>
    intro P c hL hinv
    simpa using hinv
  | cons k S' ih =>
    intro P c hL hinv
    have hkL : k ∈ (fullV x).mergeSort (fun a b => decide (a ≤ b)) := by
      rw [hL]
      exact List.mem_append_right P (List.mem_cons_self _ _)
    have hkV : k ∈ fullV x := hperm.mem_iff.1 hkL
    have hkP : k ∉ P := by
      intro hc
      rw [hL] at hnodup
      have := List.disjoint_of_nodup_append hnodup
      exact this hc (List.mem_cons_self _ _)
    have hstep : passInv x (P ++ [k]) (QdpInner k c) := by
      intro v hv
      by_cases hvk : v = k
      · subst hvk
        constructor
        · intro _
          rcases Nat.eq_zero_or_pos v with rfl | hv1
          · rw [QdpInner_zero, (hinv 0 hv).2 hkP, squarefreeCount_zero]
          · rw [QdpInner_val v c hv1, (hinv v hv).2 hkP]
            have hsub : ∀ l ∈ Finset.Icc 2 (Nat.sqrt v),
                c (v / l ^ 2) = (squarefreeCount (v / l ^ 2) : ℤ) := by
              intro l hl
              rw [Finset.mem_Icc] at hl
              have hwV : v / l ^ 2 ∈ fullV x := fullV_closed x hx v hv l hl.1
              have hwlt : v / l ^ 2 < v := by
                have h4 : 4 ≤ l ^ 2 := by nlinarith [hl.1]
                exact Nat.div_lt_self (by omega) (by omega)
              have hwP : v / l ^ 2 ∈ P := by
                have hwL : v / l ^ 2 ∈ (fullV x).mergeSort (fun a b => decide (a ≤ b)) :=
                  hperm.mem_iff.2 hwV
                rw [hL, List.mem_append] at hwL
                rcases hwL with h | h
                · exact h
                · exfalso
                  rw [hL] at hsorted
                  have hsorted2 := (List.pairwise_append.1 hsorted).2.1
                  rcases List.mem_cons.1 h with he | hmem
                  · omega
                  · have := (List.pairwise_cons.1 hsorted2).1 _ hmem
                    omega
              exact (hinv _ hwV).1 hwP
            rw [Finset.sum_congr rfl hsub]
            rw [← squarefreeCount_identity v]
        · intro hc
          exfalso
          exact hc (List.mem_append_right P (List.mem_cons_self _ _))
      · have hval : QdpInner k c v = c v := QdpInner_ne k c v hvk
        constructor
        · intro hmem
          rw [List.mem_append] at hmem
          rcases hmem with h | h
          · rw [hval]
            exact (hinv v hv).1 h
          · exfalso
            rcases List.mem_cons.1 h with he | hm
            · exact hvk he
            · simp at hm
        · intro hmem
          rw [hval]
          exact (hinv v hv).2 (fun hc => hmem (List.mem_append_left _ hc))
    have hL' : (fullV x).mergeSort (fun a b => decide (a ≤ b)) = (P ++ [k]) ++ S' := by
      rw [hL, List.append_assoc, List.singleton_append]
    have hres := ih (P ++ [k]) (QdpInner k c) hL' hstep
    rw [List.foldl_cons]
    have he : (P ++ [k]) ++ S' = P ++ (k :: S') := by
      rw [List.append_assoc, List.singleton_append]
    rw [he] at hres
    exact hres

/-- `Q_dp` computes the reference count. -/
theorem Q_dp_correct (x : ℕ) : Q_dp x = (squarefreeCount x : ℤ) := by
  rw [Q_dp]
  by_cases h01 : x = 0 ∨ x = 1
  · rw [if_pos h01]
    rcases h01 with rfl | rfl
    · rw [squarefreeCount_zero]
    · rw [show squarefreeCount 1 = 1 from by rw [squarefreeCount_eval]; decide]
  · rw [if_neg h01]
    have hx : 1 ≤ x := by omega
    have hinit : passInv x [] (QdpInit x) := by
      intro v hv
      refine ⟨fun hc => absurd hc (List.not_mem_nil v), fun _ => ?_⟩
      rw [QdpInit, if_pos hv]
    have h := qdpPass_fold x hx ((fullV x).mergeSort (fun a b => decide (a ≤ b))) []
      (QdpInit x) rfl hinit
    have hxV : x ∈ fullV x := self_mem_fullV x hx
    have hxL : x ∈ [] ++ (fullV x).mergeSort (fun a b => decide (a ≤ b)) := by
      rw [List.nil_append]
      exact (List.mergeSort_perm (fullV x) _).mem_iff.2 hxV
    exact (h x hxV).1 hxL

/-- C9: for every `x ≥ 2`, the distinct-value list `V` of `Q_dp` contains
`x`, is closed under the sub-problem map `k ↦ k // l²` for
`2 ≤ l ≤ integer_sqrt(k)`, and every such sub-problem key is strictly
smaller than `k` — so each lookup `cache[k//l**2]` of the ascending pass
hits a seeded key that was already finalised. -/
theorem claim_C9_dp_value_set (x : ℕ) (hx : 2 ≤ x) :
    x ∈ fullV x ∧
    (∀ k ∈ fullV x, ∀ l, 2 ≤ l → l ≤ integer_sqrt k → k / l ^ 2 ∈ fullV x) ∧
    (∀ k ∈ fullV x, ∀ l, 2 ≤ l → l ≤ integer_sqrt k → k / l ^ 2 < k) := by
  refine ⟨self_mem_fullV x (by omega), ?_, ?_⟩
  · intro k hk l hl2 _
    exact fullV_closed x (by omega) k hk l hl2
  · intro k hk l hl2 hlsq
    rw [integer_sqrt_eq_sqrt] at hlsq
    have hlk : l * l ≤ k := Nat.le_sqrt.1 hlsq
    have h4 : 4 ≤ l ^ 2 := by nlinarith
    exact Nat.div_lt_self (by nlinarith) (by omega)

/-- C9 witness: concrete instance `x = 12`. -/
theorem claim_C9_witness :
    (2 : ℕ) ≤ 12 ∧
    (12 ∈ fullV 12 ∧
    (∀ k ∈ fullV 12, ∀ l, 2 ≤ l → l ≤ integer_sqrt k → k / l ^ 2 ∈ fullV 12) ∧
    (∀ k ∈ fullV 12, ∀ l, 2 ≤ l → l ≤ integer_sqrt k → k / l ^ 2 < k)) :=
  ⟨by norm_num, claim_C9_dp_value_set 12 (by norm_num)⟩

/-! ### Q_sieve: the full-sieve reference -/

/-- Flag array of `Q_sieve(n)`: ones over `[0, n]` with `block[0] = False`,
then `block[p*p::p*p] = False` for each `p` in `primes(integer_sqrt(n)+1)`. -/
def QsieveBlock (n : ℕ) : ℕ → Bool :=
  (primes (integer_sqrt n + 1)).foldl (fun b p => markSlice b (p * p) (p * p))
    (arrSet onesArr 0 false)

/-- Embedding of `Q_sieve(n)`: the number of surviving flags
(`np.count_nonzero`). -/
def Q_sieve (n : ℕ) : ℕ :=
  ((List.range (n + 1)).filter (fun i => QsieveBlock n i)).length

/-- Slice membership when the start equals the step:
`s ≤ i ∧ (i-s) % s = 0` says exactly `s ∣ i ∧ s ≤ i`. -/
theorem slice_self_cond_iff (s i : ℕ) :
    (s ≤ i ∧ (i - s) % s = 0) ↔ (s ∣ i ∧ s ≤ i) := by
  constructor
  · rintro ⟨h1, h2⟩
    refine ⟨?_, h1⟩
    have hd : s ∣ (i - s) := Nat.dvd_iff_mod_eq_zero.2 h2
    have he : i = (i - s) + s := by omega
    rw [he]
    exact Nat.dvd_add hd dvd_rfl
  · rintro ⟨h1, h2⟩
    exact ⟨h2, Nat.dvd_iff_mod_eq_zero.1 (Nat.dvd_sub' h1 dvd_rfl)⟩

/-- Characterisation of a fold of unconditional square-marks. -/
theorem multiMark_char : ∀ (ps : List ℕ) (b : ℕ → Bool) (i : ℕ),
    ((ps.foldl (fun b p => markSlice b (p * p) (p * p)) b) i = true ↔
      (b i = true ∧ ∀ p ∈ ps, ¬(p * p ∣ i ∧ p * p ≤ i))) := by
  intro ps
  induction ps with
  | nil => intro b i; simp
  | cons p ps' ih =>
    intro b i
    rw [List.foldl_cons, ih]
    rw [show markSlice b (p * p) (p * p) i
        = if p * p ≤ i ∧ (i - p * p) % (p * p) = 0 then false else b i from rfl]
    by_cases hc : p * p ≤ i ∧ (i - p * p) % (p * p) = 0
    · rw [if_pos hc]
      have hd := (slice_self_cond_iff (p * p) i).1 hc
      constructor
      · rintro ⟨hfalse, _⟩
        exact absurd hfalse (by simp)
      · rintro ⟨_, hall⟩
        exact absurd hd (hall p (List.mem_cons_self _ _))
    · rw [if_neg hc]
      have hnd : ¬(p * p ∣ i ∧ p * p ≤ i) := fun h => hc ((slice_self_cond_iff _ _).2 h)
      constructor
      · rintro ⟨hb, hall⟩
        refine ⟨hb, fun q hq => ?_⟩
        rcases List.mem_cons.1 hq with rfl | hq'
        · exact hnd
        · exact hall q hq'
      · rintro ⟨hb, hall⟩
        exact ⟨hb, fun q hq' => hall q (List.mem_cons_of_mem _ hq')⟩

/-- The `Q_sieve` flag of `i ∈ [1, n]` survives exactly when `i` is
squarefree. -/
theorem QsieveBlock_char (n i : ℕ) (h1 : 1 ≤ i) (h2 : i ≤ n) :
    (QsieveBlock n i = true) ↔ Squarefree i := by
  rw [QsieveBlock, multiMark_char]
  have hinit : (arrSet onesArr 0 false) i = true := by
    rw [arrSet, if_neg (by omega), onesArr]
  rw [hinit]
  simp only [true_and]
  constructor
  · intro hall
    by_contra hnsf
    rw [Nat.squarefree_iff_prime_squarefree] at hnsf
    push_neg at hnsf
    obtain ⟨p, hp, hdvd⟩ := hnsf
    have hple : p * p ≤ i := Nat.le_of_dvd (by omega) hdvd
    have hpmem : p ∈ primes (integer_sqrt n + 1) := by
      rw [primes_eq]
      simp only [List.mem_filter, List.mem_range, decide_eq_true_eq]
      have hpsqrt : p ≤ Nat.sqrt n := by
        apply Nat.le_sqrt.2
        omega
      rw [integer_sqrt_eq_sqrt]
      exact ⟨by omega, hp⟩
    exact hall p hpmem ⟨hdvd, hple⟩
  · intro hsf p hpmem
    rw [primes_eq] at hpmem
    simp only [List.mem_filter, List.mem_range, decide_eq_true_eq] at hpmem
    rintro ⟨hdvd, _⟩
    exact (Nat.squarefree_iff_prime_squarefree.1 hsf) p hpmem.2 hdvd

/-- Length of a filtered range as a `Finset` cardinality. -/
theorem list_filter_length_eq_card (P : ℕ → Prop) [DecidablePred P] : ∀ m : ℕ,
    ((List.range m).filter (fun i => decide (P i))).length
      = ((Finset.range m).filter P).card := by
  intro m
  induction m with
  | zero => simp
  | succ m ih =>
    rw [List.range_succ, List.filter_append, List.length_append, ih]
    rw [Finset.range_succ, Finset.filter_insert]
    by_cases hP : P m
    · rw [if_pos hP]
      rw [Finset.card_insert_of_not_mem (by simp)]
      simp [hP]
    · rw [if_neg hP]
      simp [hP]

/-- `Q_sieve` computes the reference count. -/
theorem Q_sieve_correct (n : ℕ) : Q_sieve n = squarefreeCount n := by
  rw [Q_sieve]
  have hfe : (List.range (n + 1)).filter (fun i => QsieveBlock n i)
      = (List.range (n + 1)).filter (fun i => decide (1 ≤ i ∧ Squarefree i)) := by
    apply List.filter_congr
    intro i hi
    rw [List.mem_range] at hi
    rw [Bool.eq_iff_iff]
    simp only [decide_eq_true_eq]
    constructor
    · intro hb
      have h1 : 1 ≤ i := by
        by_contra hc
        have h0 : i = 0 := by omega
        rw [h0, QsieveBlock, multiMark_char] at hb
        have : (arrSet onesArr 0 false) 0 = true := hb.1
        rw [arrSet, if_pos rfl] at this
        exact Bool.false_ne_true this
      exact ⟨h1, (QsieveBlock_char n i h1 (by omega)).1 hb⟩
    · rintro ⟨h1, hsf⟩
      exact (QsieveBlock_char n i h1 (by omega)).2 hsf
  rw [hfe, list_filter_length_eq_card]
  rw [squarefreeCount]
  congr 1
  ext i
  simp only [Finset.mem_filter, Finset.mem_range, Finset.mem_Icc]
  constructor
  · rintro ⟨ha, hb, hc⟩
    exact ⟨⟨hb, by omega⟩, hc⟩
  · rintro ⟨⟨ha, hb⟩, hc⟩
    exact ⟨by omega, ha, hc⟩

/-! ### Q_moebius: the Möbius-weighted sieve -/

/-- numpy slice update `block[s::t] *= -1` on an integer array. -/
def negSlice (b : ℕ → ℤ) (s t : ℕ) : ℕ → ℤ :=
  fun i => if s ≤ i ∧ (i - s) % t = 0 then -b i else b i

/-- numpy slice update `block[s::t] = 0` on an integer array. -/
def zeroSlice (b : ℕ → ℤ) (s t : ℕ) : ℕ → ℤ :=
  fun i => if s ≤ i ∧ (i - s) % t = 0 then 0 else b i

/-- One step of `Q_moebius`: `block[p-1::p] *= -1` then
`block[p*p-1::p*p] = 0`. -/
def moebStep (p : ℕ) (b : ℕ → ℤ) : ℕ → ℤ :=
  zeroSlice (negSlice b (p - 1) p) (p * p - 1) (p * p)

/-- The array of `Q_moebius(n)` after the prime loop; index `i` stands for
`d = i + 1` with initial value `n//d**2`. -/
def moebBlock (n : ℕ) : ℕ → ℤ :=
  (primes (integer_sqrt n + 1)).foldl (fun b p => moebStep p b)
    (fun i => ((n / (i + 1) ^ 2 : ℕ) : ℤ))

/-- Embedding of `Q_moebius(n)`: `np.sum(block)` over the `bound - 1` cells,
`bound = integer_sqrt(n) + 1`. -/
def Q_moebius (n : ℕ) : ℤ :=
  ((List.range (integer_sqrt n + 1 - 1)).map (fun i => moebBlock n i)).sum

/-- The shifted slice `p-1::p` picks exactly the indices whose 1-based
position is a multiple of `p`. -/
theorem shift_slice_cond (p i : ℕ) (hp : 1 ≤ p) :
    (p - 1 ≤ i ∧ (i - (p - 1)) % p = 0) ↔ p ∣ (i + 1) := by
  constructor
  · rintro ⟨h1, h2⟩
    have hd : p ∣ (i - (p - 1)) := Nat.dvd_iff_mod_eq_zero.2 h2
    have he : i + 1 = (i - (p - 1)) + p := by omega
    rw [he]
    exact Nat.dvd_add hd dvd_rfl
  · intro hd
    have hge : p ≤ i + 1 := Nat.le_of_dvd (by omega) hd
    refine ⟨by omega, ?_⟩
    rw [← Nat.dvd_iff_mod_eq_zero] at *
    have he : i - (p - 1) = (i + 1) - p := by omega
    rw [he]
    exact Nat.dvd_sub' hd dvd_rfl

/-- Divisibility form of one `Q_moebius` step. -/
theorem moebStep_eq (p : ℕ) (hp : 1 ≤ p) (b : ℕ → ℤ) (i : ℕ) :
    moebStep p b i
      = if p * p ∣ (i + 1) then 0 else if p ∣ (i + 1) then -b i else b i := by
  rw [moebStep]
  show (if p * p - 1 ≤ i ∧ (i - (p * p - 1)) % (p * p) = 0 then 0
      else negSlice b (p - 1) p i) = _
  by_cases h2 : p * p ∣ (i + 1)
  · rw [if_pos ((shift_slice_cond (p * p) i (by nlinarith)).2 h2), if_pos h2]
  · rw [if_neg (fun hc => h2 ((shift_slice_cond (p * p) i (by nlinarith)).1 hc)),
      if_neg h2]
    show (if p - 1 ≤ i ∧ (i - (p - 1)) % p = 0 then -b i else b i) = _
    by_cases h1 : p ∣ (i + 1)
    · rw [if_pos ((shift_slice_cond p i hp).2 h1), if_pos h1]
    · rw [if_neg (fun hc => h1 ((shift_slice_cond p i hp).1 hc)), if_neg h1]

/-- Closed form of the `Q_moebius` prime loop: an entry is zeroed as soon as
the square of a listed prime divides its position, and otherwise carries one
sign flip per listed divisor. -/
theorem moebFold_char : ∀ (ps : List ℕ), (∀ p ∈ ps, 1 ≤ p) → ∀ (b : ℕ → ℤ) (i : ℕ),
    (ps.foldl (fun b p => moebStep p b) b) i
      = if ∃ p ∈ ps, p * p ∣ (i + 1) then 0
        else (-1 : ℤ) ^ (ps.countP (fun p => decide (p ∣ (i + 1)))) * b i := by
  intro ps
  induction ps with
  | nil =>
    intro _ b i
    simp
  | cons p ps' ih =>
    intro hps b i
    rw [List.foldl_cons, ih (fun q hq => hps q (List.mem_cons_of_mem _ hq))]
    have hp1 : 1 ≤ p := hps p (List.mem_cons_self _ _)
    by_cases hE : ∃ q ∈ ps', q * q ∣ (i + 1)
    · rw [if_pos hE, if_pos]
      obtain ⟨q, hq, hqd⟩ := hE
      exact ⟨q, List.mem_cons_of_mem _ hq, hqd⟩
    · rw [if_neg hE]
      rw [moebStep_eq p hp1 b i]
      by_cases hp2 : p * p ∣ (i + 1)
      · rw [if_pos hp2, if_pos ⟨p, List.mem_cons_self _ _, hp2⟩]
        ring
      · have hcons : ¬∃ q ∈ p :: ps', q * q ∣ (i + 1) := by
          rintro ⟨q, hq, hqd⟩
          rcases List.mem_cons.1 hq with rfl | hq'
          · exact hp2 hqd
          · exact hE ⟨q, hq', hqd⟩
        rw [if_neg hp2, if_neg hcons, List.countP_cons]
        by_cases hp1d : p ∣ (i + 1)
        · rw [if_pos hp1d, decide_eq_true hp1d, if_pos rfl, pow_succ]
          ring
        · rw [if_neg hp1d, decide_eq_false hp1d, if_neg Bool.false_ne_true]
          ring

/-- Each final array entry of `Q_moebius` equals `μ(d) * (n // d²)`. -/
theorem moebBlock_eq (n i : ℕ) (hd : i + 1 ≤ Nat.sqrt n) :
    moebBlock n i
      = (ArithmeticFunction.moebius (i + 1) : ℤ) * ((n / (i + 1) ^ 2 : ℕ) : ℤ) := by
  have hprime : ∀ p ∈ primes (integer_sqrt n + 1), p.Prime := by
    intro p hp
    rw [primes_eq] at hp
    simp only [List.mem_filter, List.mem_range, decide_eq_true_eq] at hp
    exact hp.2
  have hmem : ∀ p : ℕ, p.Prime → p ∣ (i + 1) → p ∈ primes (integer_sqrt n + 1) := by
    intro p hp hdvd
    rw [primes_eq]
    simp only [List.mem_filter, List.mem_range, decide_eq_true_eq]
    have hple : p ≤ i + 1 := Nat.le_of_dvd (by omega) hdvd
    rw [integer_sqrt_eq_sqrt]
    exact ⟨by omega, hp⟩
  rw [moebBlock, moebFold_char _ (fun p hp => (hprime p hp).two_le.trans' (by omega))]
  by_cases hE : ∃ p ∈ primes (integer_sqrt n + 1), p * p ∣ (i + 1)
  · rw [if_pos hE]
    obtain ⟨p, hp, hpd⟩ := hE
    have hnsf : ¬Squarefree (i + 1) := by
      rw [Nat.squarefree_iff_prime_squarefree]
      push_neg
      exact ⟨p, hprime p hp, hpd⟩
    rw [ArithmeticFunction.moebius_eq_zero_of_not_squarefree hnsf]
    simp
  · rw [if_neg hE]
    have hsf : Squarefree (i + 1) := by
      rw [Nat.squarefree_iff_prime_squarefree]
      intro q hq hqd
      exact hE ⟨q, hmem q hq (dvd_trans (Dvd.intro q rfl) hqd), hqd⟩
    rw [ArithmeticFunction.moebius_apply_of_squarefree hsf]
    have homega : ArithmeticFunction.cardFactors (i + 1)
        = ArithmeticFunction.cardDistinctFactors (i + 1) :=
      ((ArithmeticFunction.cardDistinctFactors_eq_cardFactors_iff_squarefree
        (by omega)).2 hsf).symm
    rw [homega]
    have hcount : (primes (integer_sqrt n + 1)).countP (fun p => decide (p ∣ (i + 1)))
        = ArithmeticFunction.cardDistinctFactors (i + 1) := by
      rw [primes_eq, List.countP_filter]
      have hpredeq : (fun a => decide (a ∣ (i + 1)) && decide a.Prime)
          = fun a => decide (a ∣ (i + 1) ∧ a.Prime) := by
        funext a
        rw [Bool.decide_and]
      rw [hpredeq]
      rw [List.countP_eq_length_filter, list_filter_length_eq_card]
      rw [ArithmeticFunction.cardDistinctFactors_apply, ← List.card_toFinset]
      have hsets : (Finset.range (integer_sqrt n + 1 + 1)).filter
          (fun a => a ∣ (i + 1) ∧ a.Prime) = (i + 1).primeFactorsList.toFinset := by
        ext a
        rw [Finset.mem_filter, Finset.mem_range, List.mem_toFinset,
          Nat.mem_primeFactorsList (by omega)]
        constructor
        · rintro ⟨_, hdvd, hp⟩
          exact ⟨hp, hdvd⟩
        · rintro ⟨hp, hdvd⟩
          have hle : a ≤ i + 1 := Nat.le_of_dvd (by omega) hdvd
          rw [integer_sqrt_eq_sqrt]
          exact ⟨by omega, hdvd, hp⟩
      rw [hsets]
    rw [hcount]

/-- Möbius inversion of the partition identity:
`∑_{d=1}^{√x} μ(d)·⌊x/d²⌋ = Q(x)`. -/
theorem moebius_sum_eq (x : ℕ) :
    ∑ d ∈ Finset.Icc 1 (Nat.sqrt x),
        (ArithmeticFunction.moebius d : ℤ) * ((x / d ^ 2 : ℕ) : ℤ)
      = (squarefreeCount x : ℤ) := by
  rcases Nat.eq_zero_or_pos x with rfl | hx
  · rw [squarefreeCount_zero]
    simp
  have hs1 : 1 ≤ Nat.sqrt x := Nat.le_sqrt.2 (by omega)
  have hiff : ∀ d k : ℕ, 1 ≤ d → (k ≤ Nat.sqrt (x / d ^ 2) ↔ d * k ≤ Nat.sqrt x) := by
    intro d k hd
    rw [Nat.le_sqrt, Nat.le_sqrt, Nat.le_div_iff_mul_le (pow_pos (by omega) 2)]
    constructor
    · intro h
      calc d * k * (d * k) = k * k * d ^ 2 := by ring
        _ ≤ x := h
    · intro h
      calc k * k * d ^ 2 = d * k * (d * k) := by ring
        _ ≤ x := h
  have hstep1 : ∑ d ∈ Finset.Icc 1 (Nat.sqrt x),
      (ArithmeticFunction.moebius d : ℤ) * ((x / d ^ 2 : ℕ) : ℤ)
      = ∑ d ∈ Finset.Icc 1 (Nat.sqrt x), ∑ k ∈ Finset.Icc 1 (Nat.sqrt (x / d ^ 2)),
          (ArithmeticFunction.moebius d : ℤ) * ((squarefreeCount (x / (d * k) ^ 2) : ℕ) : ℤ) := by
    apply Finset.sum_congr rfl
    intro d hd
    rw [Finset.mem_Icc] at hd
    rw [← Finset.mul_sum]
    congr 1
    have hid := sum_squarefreeCount (x / d ^ 2)
    have hcast : ((x / d ^ 2 : ℕ) : ℤ)
        = ((∑ k ∈ Finset.Icc 1 (Nat.sqrt (x / d ^ 2)), squarefreeCount (x / d ^ 2 / k ^ 2) : ℕ) : ℤ) := by
      rw [hid]
    rw [hcast, Nat.cast_sum]
    apply Finset.sum_congr rfl
    intro k _
    congr 2
    rw [Nat.div_div_eq_div_mul, ← Nat.mul_pow]
  rw [hstep1]
  rw [← Finset.sum_sigma (Finset.Icc 1 (Nat.sqrt x))
    (fun d => Finset.Icc 1 (Nat.sqrt (x / d ^ 2)))
    (fun p => (ArithmeticFunction.moebius p.1 : ℤ)
      * ((squarefreeCount (x / (p.1 * p.2) ^ 2) : ℕ) : ℤ))]
  have hbij : ∑ p ∈ (Finset.Icc 1 (Nat.sqrt x)).sigma
        (fun d => Finset.Icc 1 (Nat.sqrt (x / d ^ 2))),
      (ArithmeticFunction.moebius p.1 : ℤ) * ((squarefreeCount (x / (p.1 * p.2) ^ 2) : ℕ) : ℤ)
      = ∑ q ∈ (Finset.Icc 1 (Nat.sqrt x)).sigma (fun m => m.divisorsAntidiagonal),
          (ArithmeticFunction.moebius q.2.1 : ℤ) * ((squarefreeCount (x / q.1 ^ 2) : ℕ) : ℤ) := by
    apply Finset.sum_nbij' (fun p => ⟨p.1 * p.2, (p.1, p.2)⟩)
      (fun q => ⟨q.2.1, q.2.2⟩)
    · rintro ⟨d, k⟩ hp
      simp only [Finset.mem_sigma, Finset.mem_Icc] at hp
      obtain ⟨⟨hd1, hd2⟩, hk1, hk2⟩ := hp
      dsimp only
      rw [Finset.mem_sigma]
      constructor
      · rw [Finset.mem_Icc]
        exact ⟨Nat.mul_pos (by omega) (by omega), (hiff d k hd1).1 hk2⟩
      · rw [Nat.mem_divisorsAntidiagonal]
        exact ⟨rfl, Nat.mul_ne_zero (by omega) (by omega)⟩
    · rintro ⟨m, d, k⟩ hq
      simp only [Finset.mem_sigma, Finset.mem_Icc, Nat.mem_divisorsAntidiagonal] at hq
      obtain ⟨⟨hm1, hm2⟩, hdk, hm0⟩ := hq
      dsimp only
      have hd1 : 1 ≤ d := by
        rcases Nat.eq_zero_or_pos d with rfl | h
        · simp at hdk
          omega
        · omega
      have hk1 : 1 ≤ k := by
        rcases Nat.eq_zero_or_pos k with rfl | h
        · simp at hdk
          omega
        · omega
      simp only [Finset.mem_sigma, Finset.mem_Icc]
      refine ⟨⟨hd1, ?_⟩, hk1, ?_⟩
      · calc d ≤ d * k := Nat.le_mul_of_pos_right d (by omega)
          _ = m := hdk
          _ ≤ Nat.sqrt x := hm2
      · rw [hiff d k hd1, hdk]
        exact hm2
    · rintro ⟨d, k⟩ _
      rfl
    · rintro ⟨m, d, k⟩ hq
      simp only [Finset.mem_sigma, Finset.mem_Icc, Nat.mem_divisorsAntidiagonal] at hq
      obtain ⟨_, hdk, _⟩ := hq
      simp only
      rw [hdk]
    · rintro ⟨d, k⟩ _
      rfl
  rw [hbij]
  rw [Finset.sum_sigma]
  have hinner : ∀ m ∈ Finset.Icc 1 (Nat.sqrt x),
      ∑ p ∈ m.divisorsAntidiagonal,
          (ArithmeticFunction.moebius p.1 : ℤ) * ((squarefreeCount (x / m ^ 2) : ℕ) : ℤ)
        = (if m = 1 then 1 else 0) * ((squarefreeCount (x / m ^ 2) : ℕ) : ℤ) := by
    intro m hm
    rw [Finset.mem_Icc] at hm
    rw [← Finset.sum_mul]
    congr 1
    have h1 : ∑ p ∈ m.divisorsAntidiagonal, (ArithmeticFunction.moebius p.1 : ℤ)
        = ∑ i ∈ m.divisors, (ArithmeticFunction.moebius i : ℤ) :=
      Nat.sum_divisorsAntidiagonal (fun i _ => (ArithmeticFunction.moebius i : ℤ))
    rw [h1]
    rw [← ArithmeticFunction.coe_mul_zeta_apply (f := ArithmeticFunction.moebius) (x := m)]
    rw [ArithmeticFunction.moebius_mul_coe_zeta]
    rw [ArithmeticFunction.one_apply]
  rw [Finset.sum_congr rfl hinner]
  simp only [ite_mul, one_mul, zero_mul]
  rw [Finset.sum_ite_eq' (Finset.Icc 1 (Nat.sqrt x)) 1
    (fun m => ((squarefreeCount (x / m ^ 2) : ℕ) : ℤ))]
  rw [if_pos (Finset.mem_Icc.2 ⟨le_rfl, hs1⟩)]
  simp

/-- `Q_moebius` computes the reference count. -/
theorem Q_moebius_correct (n : ℕ) : Q_moebius n = (squarefreeCount n : ℤ) := by
  rw [Q_moebius]
  have he : integer_sqrt n + 1 - 1 = Nat.sqrt n := by
    rw [integer_sqrt_eq_sqrt]
    omega
  rw [he, List.range_eq_range', list_range'_map_sum]
  have hcong : ∀ i ∈ Finset.Ico 0 (0 + Nat.sqrt n),
      moebBlock n i
        = (ArithmeticFunction.moebius (i + 1) : ℤ) * ((n / (i + 1) ^ 2 : ℕ) : ℤ) := by
    intro i hi
    rw [Finset.mem_Ico] at hi
    exact moebBlock_eq n i (by omega)
  rw [Finset.sum_congr rfl hcong, ← moebius_sum_eq n]
  apply Finset.sum_nbij' (fun i => i + 1) (fun d => d - 1)
  · intro a ha
    rw [Finset.mem_Ico] at ha
    rw [Finset.mem_Icc]
    omega
  · intro d hd
    rw [Finset.mem_Icc] at hd
    rw [Finset.mem_Ico]
    omega
  · intro a _
    omega
  · intro d hd
    rw [Finset.mem_Icc] at hd
    omega
  · intro a _
    rfl

/-- C1: on the cross-validation range, the memoized form, the DP form and
the Möbius-sieve form agree exactly, and equal the full-sieve reference. -/
theorem claim_C1_engines_agree (x : ℕ) (_hx : x ≤ 10 ^ 6) :
    Q_memo_top x = Q_dp x ∧ Q_dp x = Q_moebius x ∧ Q_moebius x = (Q_sieve x : ℤ) := by
  have h1 : Q_memo_top x = (squarefreeCount x : ℤ) :=
    (Q_memo_correct x [(1, 1)] validC_init).1
  have h2 := Q_dp_correct x
  have h3 := Q_moebius_correct x
  have h4 : ((Q_sieve x : ℕ) : ℤ) = (squarefreeCount x : ℤ) := by
    rw [Q_sieve_correct x]
  exact ⟨by rw [h1, h2], by rw [h2, h3], by rw [h3, h4]⟩

/-- C1 witness: concrete instance `x = 12`. -/
theorem claim_C1_witness :
    (12 : ℕ) ≤ 10 ^ 6 ∧
    (Q_memo_top 12 = Q_dp 12 ∧ Q_dp 12 = Q_moebius 12 ∧
      Q_moebius 12 = (Q_sieve 12 : ℤ)) :=
  ⟨by norm_num, claim_C1_engines_agree 12 (by norm_num)⟩

/-- C5 counterexample: the claim fails at the in-domain input `n = 0` of
`sieve_primes`: `eratosthenes(0)` raises `IndexError` (the chained
`block[0] = block[1] = False` indexes past a 1-cell array) even though `0`
is in the declared domain `n ≥ 0`, and the failure is neither the
`InvalidArgument` kind nor an upfront rejection. -/
theorem claim_C5_counterexample : eratosthenesE 0 = .error .indexError := by
  rfl

/-- C5 (amended): only the integer-root entry points validate their domain
upfront with `ValueError` and never fail on valid inputs; the sieve has no
guard at all — it fails with `IndexError` at `n ∈ {-1, 0}` and with numpy's
`ValueError` for `n ≤ -2`, mid-computation — and the DP counting engine
fails with `IndexError` (the `V[-1]` lookup) for every `x < 0` rather than
rejecting upfront. -/
theorem claim_C5_error_contract :
    (∀ n k : ℤ, (n < 0 ∨ k < 1) → integer_kth_rootE n k = .error .valueError) ∧
    (∀ n k : ℤ, 0 ≤ n → 1 ≤ k → ∃ m, integer_kth_rootE n k = .ok m) ∧
    (∀ n : ℤ, n < 0 → integer_sqrtE n = .error .valueError) ∧
    (∀ n : ℤ, 0 ≤ n → ∃ m, integer_sqrtE n = .ok m) ∧
    (∀ n : ℤ, 1 ≤ n → ∃ l, eratosthenesE n = .ok l) ∧
    (∀ n : ℤ, n = -1 ∨ n = 0 → eratosthenesE n = .error .indexError) ∧
    (∀ n : ℤ, n ≤ -2 → eratosthenesE n = .error .valueError) ∧
    (∀ x : ℤ, 0 ≤ x → ∃ v, Q_dpE x = .ok v) ∧
    (∀ x : ℤ, x < 0 → Q_dpE x = .error .indexError) := by
  refine ⟨?_, ?_, ?_, ?_, ?_, ?_, ?_, ?_, ?_⟩
  · intro n k h
    rw [integer_kth_rootE]
    rcases h with h | h
    · rw [if_pos h]
    · by_cases hn : n < 0
      · rw [if_pos hn]
      · rw [if_neg hn, if_pos h]
  · intro n k hn hk
    rw [integer_kth_rootE, if_neg (by omega), if_neg (by omega)]
    exact ⟨_, rfl⟩
  · intro n h
    rw [integer_sqrtE, if_pos h]
  · intro n h
    rw [integer_sqrtE, if_neg (by omega)]
    exact ⟨_, rfl⟩
  · intro n h
    rw [eratosthenesE, if_neg (by omega), if_neg (by omega), if_neg (by omega)]
    exact ⟨_, rfl⟩
  · intro n h
    rw [eratosthenesE, if_neg (by omega)]
    rcases h with rfl | rfl
    · rw [if_pos (by norm_num)]
    · rw [if_neg (by norm_num), if_pos (by norm_num)]
  · intro n h
    rw [eratosthenesE, if_pos (by omega)]
  · intro x h
    rw [Q_dpE]
    by_cases h01 : x = 0 ∨ x = 1
    · rw [if_pos h01]
      exact ⟨_, rfl⟩
    · rw [if_neg h01]
      have hx2 : 2 ≤ x := by omega
      rw [if_pos (by show x / 2 ^ 2 < x / 1 ^ 2; norm_num; omega)]
      exact ⟨_, rfl⟩
  · intro x h
    rw [Q_dpE, if_neg (by omega)]
    rw [if_neg (by show ¬x / 2 ^ 2 < x / 1 ^ 2; norm_num; omega)]

/-- C5 witness: concrete instances for the amended contract. -/
theorem claim_C5_witness :
    (((-1 : ℤ) < 0 ∨ (2 : ℤ) < 1) ∧ integer_kth_rootE (-1) 2 = .error .valueError) ∧
    ((1 : ℤ) ≤ 30 ∧ ∃ l, eratosthenesE 30 = .ok l) ∧
    ((-7 : ℤ) < 0 ∧ Q_dpE (-7) = .error .indexError) :=
  ⟨⟨Or.inl (by norm_num),
      claim_C5_error_contract.1 (-1) 2 (Or.inl (by norm_num))⟩,
    ⟨by norm_num, claim_C5_error_contract.2.2.2.2.1 30 (by norm_num)⟩,
    ⟨by norm_num, claim_C5_error_contract.2.2.2.2.2.2.2.2 (-7) (by norm_num)⟩⟩

/-! ### The wheel sieve luo and the segmented sieve sieve_interval -/

/-- Bitwise `x | 1` on ℕ: sets the low bit. -/
theorem lor_one (x : ℕ) : x ||| 1 = if x % 2 = 0 then x + 1 else x := by
  apply Nat.eq_of_testBit_eq
  intro i
  rw [Nat.testBit_lor]
  cases i with
  | zero =>
    rw [Nat.testBit_zero, Nat.testBit_zero]
    by_cases h : x % 2 = 0
    · rw [if_pos h]
      rw [Nat.testBit_zero]
      simp [Nat.add_mod, h]
    · rw [if_neg h]
      have : x % 2 = 1 := by omega
      simp [this]
  | succ i =>
    rw [Nat.testBit_succ, Nat.testBit_succ]
    have h1 : (1 : ℕ) / 2 = 0 := by norm_num
    rw [h1, Nat.zero_testBit, Bool.or_false]
    by_cases h : x % 2 = 0
    · rw [if_pos h, Nat.testBit_succ]
      have : (x + 1) / 2 = x / 2 := by omega
      rw [this]
    · rw [if_neg h, Nat.testBit_succ]

/-- Wheel value of cell `i` in `luo`: the number `(3*i+1) | 1` (the odd
numbers coprime to 6, i.e. `1, 5, 7, 11, 13, ...`). -/
def wheelNum (i : ℕ) : ℕ := (3 * i + 1) ||| 1

theorem wheelNum_eq (i : ℕ) : wheelNum i = 3 * i + 1 + i % 2 := by
  rw [wheelNum, lor_one]
  by_cases h : i % 2 = 0
  · rw [if_neg (by omega)]
    omega
  · rw [if_pos (by omega)]
    omega

/-- One iteration of `luo`'s marking loop: update the scalars
`k = 3 - k`, `c += 4*k*i`, `t += 4*k`, and if `block[i]` is still set,
clear the two slices `block[c::t]` and `block[b::t]` with
`b = c + 2*i*(3-k) + 1`. -/
def luoStep (s : (ℕ → Bool) × ℕ × ℕ × ℕ) (i : ℕ) : (ℕ → Bool) × ℕ × ℕ × ℕ :=
  let k := 3 - s.2.2.1
  let c := s.2.1 + 4 * k * i
  let t := s.2.2.2 + 4 * k
  if s.1 i then
    (markSlice (markSlice s.1 c t) (c + 2 * i * (3 - k) + 1) t, c, k, t)
  else (s.1, c, k, t)

/-- Initial flag array of `luo`: ones with `block[0] = False`. -/
def luoInit : ℕ → Bool := arrSet onesArr 0 false

/-- The marking loop of `luo` over the index list `is`. -/
def luoFold (is : List ℕ) (s : (ℕ → Bool) × ℕ × ℕ × ℕ) : (ℕ → Bool) × ℕ × ℕ × ℕ :=
  is.foldl luoStep s

/-- `luo`'s flag-array length `(n+1)//3 + (n % 6 == 1)`: the number of
integers in `[1, n]` coprime to 6. -/
def luoBlockSize (n : ℕ) : ℕ := (n + 1) / 3 + (if n % 6 = 1 then 1 else 0)

/-- Flag array of `luo(n)` after the loop over `range(1, integer_sqrt(n)//3 + 1)`. -/
def luoBlock (n : ℕ) : ℕ → Bool :=
  (luoFold (List.range' 1 (integer_sqrt n / 3)) (luoInit, 0, 1, 2)).1

/-- Embedding of `luo(n)` (pure core; Python raises `IndexError` at `n = 0`):
the wheel-of-6 sieve, returning `np.r_[2, 3, (3*nonzero + 1) | 1]`. -/
def luo (n : ℕ) : List ℕ :=
  2 :: 3 :: (((List.range (luoBlockSize n)).filter
      (fun i => luoBlock n i)).map (fun i => wheelNum i))

/-- Scalar invariant of `luo`: after step `i` the slice start `c` equals
`wheelNum(i)^2 // 3`, here written `(wheelNum i * wheelNum i - 1) / 3`. -/
def wheelC (i : ℕ) : ℕ := (wheelNum i * wheelNum i - 1) / 3

theorem wheelC_spec (i : ℕ) : 3 * wheelC i + 1 = wheelNum i * wheelNum i := by
  have h := wheelNum_eq i
  rw [wheelC]
  by_cases hp : i % 2 = 0
  · have hm : wheelNum i = 3 * i + 1 := by omega
    have he : wheelNum i * wheelNum i = 3 * (3 * i * i + 2 * i) + 1 := by
      rw [hm]; ring
    omega
  · have hm : wheelNum i = 3 * i + 2 := by omega
    have he : wheelNum i * wheelNum i = 3 * (3 * i * i + 4 * i + 1) + 1 := by
      rw [hm]; ring
    omega

theorem luoStep_scalars (s : (ℕ → Bool) × ℕ × ℕ × ℕ) (i : ℕ) :
    (luoStep s i).2 =
      (s.2.1 + 4 * (3 - s.2.2.1) * i, 3 - s.2.2.1, s.2.2.2 + 4 * (3 - s.2.2.1)) := by
  rw [luoStep]
  split <;> rfl

theorem luoFold_scalars (L : ℕ) : ∀ b : ℕ → Bool,
    (luoFold (List.range' 1 L) (b, 0, 1, 2)).2 = (wheelC L, 1 + L % 2, 2 * wheelNum L) := by
  induction L with
  | zero =>
    intro b
    have h0 : wheelC 0 = 0 := by rfl
    have h1 : wheelNum 0 = 1 := by rfl
    rw [luoFold]
    simp [h0, h1]
  | succ L ih =>
    intro b
    have hsplit : List.range' 1 (L + 1) 1 = List.range' 1 L 1 ++ [1 + 1 * L] :=
      List.range'_concat 1 L
    rw [luoFold, hsplit, List.foldl_append]
    simp only [List.foldl_cons, List.foldl_nil]
    rw [show List.foldl luoStep (b, 0, 1, 2) (List.range' 1 L)
        = luoFold (List.range' 1 L) (b, 0, 1, 2) from rfl]
    rw [luoStep_scalars, ih b]
    simp only [Prod.mk.injEq]
    have hL := wheelNum_eq L
    have hL1 := wheelNum_eq (L + 1)
    have hcL := wheelC_spec L
    have hcL1 := wheelC_spec (L + 1)
    refine ⟨?_, by omega, by omega⟩
    by_cases hp : L % 2 = 0
    · have hm1 : wheelNum L = 3 * L + 1 := by omega
      have hm2 : wheelNum (L + 1) = 3 * L + 5 := by omega
      have he : wheelNum (L + 1) * wheelNum (L + 1)
          = wheelNum L * wheelNum L + 24 * L + 24 := by
        rw [hm1, hm2]; ring
      rw [show 3 - (1 + L % 2) = 2 from by omega]
      omega
    · have hm1 : wheelNum L = 3 * L + 2 := by omega
      have hm2 : wheelNum (L + 1) = 3 * L + 4 := by omega
      have he : wheelNum (L + 1) * wheelNum (L + 1)
          = wheelNum L * wheelNum L + 12 * L + 12 := by
        rw [hm1, hm2]; ring
      rw [show 3 - (1 + L % 2) = 1 from by omega]
      omega

theorem wheelNum_mod6 (i : ℕ) : wheelNum i % 6 = 1 + 4 * (i % 2) := by
  have := wheelNum_eq i
  omega

theorem wheelNum_of_mod6 (x : ℕ) (hx : x % 6 = 1 ∨ x % 6 = 5) :
    wheelNum (x / 3) = x := by
  have := wheelNum_eq (x / 3)
  omega

theorem wheelNum_lt (i j : ℕ) (h : i < j) : wheelNum i < wheelNum j := by
  have h1 := wheelNum_eq i
  have h2 := wheelNum_eq j
  omega

theorem wheelNum_ge (i : ℕ) (h : 1 ≤ i) : 5 ≤ wheelNum i := by
  have := wheelNum_eq i
  omega

theorem luoB_spec (i : ℕ) :
    3 * (wheelC i + 2 * i * (2 - i % 2) + 1) + 2 = wheelNum i * wheelNum (i + 1) := by
  have hc := wheelC_spec i
  have h1 := wheelNum_eq i
  have h2 := wheelNum_eq (i + 1)
  by_cases hp : i % 2 = 0
  · have hm1 : wheelNum i = 3 * i + 1 := by omega
    have hm2 : wheelNum (i + 1) = 3 * i + 5 := by omega
    have he : wheelNum i * wheelNum (i + 1) = 9 * (i * i) + 18 * i + 5 := by
      rw [hm1, hm2]; ring
    have he2 : wheelNum i * wheelNum i = 9 * (i * i) + 6 * i + 1 := by
      rw [hm1]; ring
    rw [show 2 - i % 2 = 2 from by omega]
    omega
  · have hm1 : wheelNum i = 3 * i + 2 := by omega
    have hm2 : wheelNum (i + 1) = 3 * i + 4 := by omega
    have he : wheelNum i * wheelNum (i + 1) = 9 * (i * i) + 18 * i + 8 := by
      rw [hm1, hm2]; ring
    have he2 : wheelNum i * wheelNum i = 9 * (i * i) + 12 * i + 4 := by
      rw [hm1]; ring
    rw [show 2 - i % 2 = 1 from by omega]
    omega

theorem luo_slice_iff (i j : ℕ) (hi : 1 ≤ i) :
    ((wheelC i ≤ j ∧ (j - wheelC i) % (2 * wheelNum i) = 0) ∨
     (wheelC i + 2 * i * (2 - i % 2) + 1 ≤ j ∧
       (j - (wheelC i + 2 * i * (2 - i % 2) + 1)) % (2 * wheelNum i) = 0))
    ↔ (wheelNum i ∣ wheelNum j ∧ wheelNum i * wheelNum i ≤ wheelNum j) := by
  have hc := wheelC_spec i
  have hb := luoB_spec i
  have hp6 := wheelNum_mod6 i
  have hq06 := wheelNum_mod6 (i + 1)
  have hu6 := wheelNum_mod6 j
  have huj := wheelNum_eq j
  have hpq : wheelNum i < wheelNum (i + 1) := wheelNum_lt i (i + 1) (by omega)
  have hp5 : 5 ≤ wheelNum i := wheelNum_ge i hi
  have hqp : wheelNum (i + 1) ≤ wheelNum i + 4 := by
    have := wheelNum_eq i
    have := wheelNum_eq (i + 1)
    omega
  have hpp6 : wheelNum i * wheelNum i % 6 = 1 := by
    have h := Nat.mul_mod (wheelNum i) (wheelNum i) 6
    by_cases hp : i % 2 = 0
    · rw [show wheelNum i % 6 = 1 from by omega] at h
      omega
    · rw [show wheelNum i % 6 = 5 from by omega] at h
      omega
  have hpq6 : wheelNum i * wheelNum (i + 1) % 6 = 5 := by
    have h := Nat.mul_mod (wheelNum i) (wheelNum (i + 1)) 6
    by_cases hp : i % 2 = 0
    · rw [show wheelNum i % 6 = 1 from by omega,
        show wheelNum (i + 1) % 6 = 5 from by omega] at h
      omega
    · rw [show wheelNum i % 6 = 5 from by omega,
        show wheelNum (i + 1) % 6 = 1 from by omega] at h
      omega
  constructor
  · rintro (⟨h1, h2⟩ | ⟨h1, h2⟩)
    · obtain ⟨l, hl⟩ : 2 * wheelNum i ∣ (j - wheelC i) := Nat.dvd_iff_mod_eq_zero.2 h2
      have hbr : 2 * wheelNum i * l = 2 * (wheelNum i * l) := by ring
      have hx6 : (wheelNum i * wheelNum i + 6 * (wheelNum i * l)) % 6 = 1 := by
        omega
      have hj3 : j = (wheelNum i * wheelNum i + 6 * (wheelNum i * l)) / 3 := by
        omega
      have hwj : wheelNum j = wheelNum i * wheelNum i + 6 * (wheelNum i * l) := by
        rw [hj3]
        exact wheelNum_of_mod6 _ (Or.inl hx6)
      constructor
      · exact ⟨wheelNum i + 6 * l, by rw [hwj]; ring⟩
      · omega
    · obtain ⟨l, hl⟩ : 2 * wheelNum i ∣ (j - (wheelC i + 2 * i * (2 - i % 2) + 1)) :=
        Nat.dvd_iff_mod_eq_zero.2 h2
      have hbr : 2 * wheelNum i * l = 2 * (wheelNum i * l) := by ring
      have hx6 : (wheelNum i * wheelNum (i + 1) + 6 * (wheelNum i * l)) % 6 = 5 := by
        omega
      have hj3 : j = (wheelNum i * wheelNum (i + 1) + 6 * (wheelNum i * l)) / 3 := by
        omega
      have hwj : wheelNum j = wheelNum i * wheelNum (i + 1) + 6 * (wheelNum i * l) := by
        rw [hj3]
        exact wheelNum_of_mod6 _ (Or.inr hx6)
      have hpple : wheelNum i * wheelNum i < wheelNum i * wheelNum (i + 1) :=
        mul_lt_mul_of_pos_left hpq (by omega)
      constructor
      · exact ⟨wheelNum (i + 1) + 6 * l, by rw [hwj]; ring⟩
      · omega
  · rintro ⟨⟨q, hq⟩, hsq⟩
    have hqpos : 1 ≤ q := by
      rcases Nat.eq_zero_or_pos q with h0 | h0
      · rw [h0, Nat.mul_zero] at hq
        omega
      · exact h0
    have hqge : wheelNum i ≤ q := by
      by_contra hlt
      push_neg at hlt
      have : wheelNum i * q < wheelNum i * wheelNum i :=
        mul_lt_mul_of_pos_left hlt (by omega)
      omega
    have hq6 : q % 6 = 1 ∨ q % 6 = 5 := by
      have h := Nat.mul_mod (wheelNum i) q 6
      rw [← hq] at h
      by_cases hp : i % 2 = 0
      · rw [show wheelNum i % 6 = 1 from by omega] at h
        omega
      · rw [show wheelNum i % 6 = 5 from by omega] at h
        omega
    by_cases hsame : q % 6 = wheelNum i % 6
    · -- same residue: first slice
      obtain ⟨l, hl⟩ : ∃ l, q = wheelNum i + 6 * l := ⟨(q - wheelNum i) / 6, by omega⟩
      have hu : wheelNum j = wheelNum i * wheelNum i + 6 * (wheelNum i * l) := by
        rw [hq, hl]; ring
      have hu1 : wheelNum j % 6 = 1 := by omega
      have hbr : 2 * wheelNum i * l = 2 * (wheelNum i * l) := by ring
      have hj : j = wheelC i + 2 * (wheelNum i * l) := by omega
      left
      refine ⟨by omega, ?_⟩
      rw [show j - wheelC i = 2 * wheelNum i * l from by omega]
      exact Nat.mul_mod_right _ _
    · -- opposite residue: second slice
      have hqop : q % 6 = wheelNum (i + 1) % 6 := by omega
      have hqgt : wheelNum i < q := by omega
      have hqge0 : wheelNum (i + 1) ≤ q := by omega
      obtain ⟨l, hl⟩ : ∃ l, q = wheelNum (i + 1) + 6 * l :=
        ⟨(q - wheelNum (i + 1)) / 6, by omega⟩
      have hu : wheelNum j = wheelNum i * wheelNum (i + 1) + 6 * (wheelNum i * l) := by
        rw [hq, hl]; ring
      have hu5 : wheelNum j % 6 = 5 := by omega
      have hbr : 2 * wheelNum i * l = 2 * (wheelNum i * l) := by ring
      have hj : j = (wheelC i + 2 * i * (2 - i % 2) + 1) + 2 * (wheelNum i * l) := by
        omega
      right
      refine ⟨by omega, ?_⟩
      rw [show j - (wheelC i + 2 * i * (2 - i % 2) + 1) = 2 * wheelNum i * l from by omega]
      exact Nat.mul_mod_right _ _

theorem markSlice_twice (B : ℕ → Bool) (c b t j : ℕ) :
    markSlice (markSlice B c t) b t j
      = if (c ≤ j ∧ (j - c) % t = 0) ∨ (b ≤ j ∧ (j - b) % t = 0) then false else B j := by
  rw [markSlice, markSlice]
  by_cases h1 : b ≤ j ∧ (j - b) % t = 0
  · rw [if_pos h1, if_pos (Or.inr h1)]
  · rw [if_neg h1]
    by_cases h2 : c ≤ j ∧ (j - c) % t = 0
    · rw [if_pos h2, if_pos (Or.inl h2)]
    · rw [if_neg h2, if_neg (by tauto)]

theorem luoFold_char : ∀ L j,
    (luoFold (List.range' 1 L) (luoInit, 0, 1, 2)).1 j = true ↔
      (1 ≤ j ∧ ∀ i, 1 ≤ i → i < 1 + L →
        ¬(wheelNum i ∣ wheelNum j ∧ wheelNum i * wheelNum i ≤ wheelNum j)) := by
  intro L
  induction L with
  | zero =>
    intro j
    show luoInit j = true ↔ _
    rw [luoInit, arrSet, onesArr]
    constructor
    · intro h
      by_cases h0 : j = 0
      · simp [h0] at h
      · exact ⟨by omega, fun i hi1 hi0 => by omega⟩
    · intro ⟨h1, _⟩
      rw [if_neg (by omega)]
  | succ L ih =>
    intro j
    have hsplit : List.range' 1 (L + 1) 1 = List.range' 1 L 1 ++ [1 + 1 * L] :=
      List.range'_concat 1 L
    rw [luoFold, hsplit, List.foldl_append]
    simp only [List.foldl_cons, List.foldl_nil, one_mul]
    rw [show List.foldl luoStep (luoInit, 0, 1, 2) (List.range' 1 L)
        = luoFold (List.range' 1 L) (luoInit, 0, 1, 2) from rfl]
    have hs : luoFold (List.range' 1 L) (luoInit, 0, 1, 2)
        = ((luoFold (List.range' 1 L) (luoInit, 0, 1, 2)).1,
            wheelC L, 1 + L % 2, 2 * wheelNum L) := by
      rw [← luoFold_scalars L luoInit]
    rw [hs, show 1 + L = L + 1 from by omega]
    simp only [luoStep]
    have hL := wheelNum_eq L
    have hL1 := wheelNum_eq (L + 1)
    have hcL := wheelC_spec L
    have hcL1 := wheelC_spec (L + 1)
    have hc2 : wheelC L + 4 * (3 - (1 + L % 2)) * (L + 1) = wheelC (L + 1) := by
      by_cases hp : L % 2 = 0
      · have hm1 : wheelNum L = 3 * L + 1 := by omega
        have hm2 : wheelNum (L + 1) = 3 * L + 5 := by omega
        have he : wheelNum (L + 1) * wheelNum (L + 1)
            = wheelNum L * wheelNum L + 24 * L + 24 := by
          rw [hm1, hm2]; ring
        rw [show 3 - (1 + L % 2) = 2 from by omega]
        omega
      · have hm1 : wheelNum L = 3 * L + 2 := by omega
        have hm2 : wheelNum (L + 1) = 3 * L + 4 := by omega
        have he : wheelNum (L + 1) * wheelNum (L + 1)
            = wheelNum L * wheelNum L + 12 * L + 12 := by
          rw [hm1, hm2]; ring
        rw [show 3 - (1 + L % 2) = 1 from by omega]
        omega
    have ht2 : 2 * wheelNum L + 4 * (3 - (1 + L % 2)) = 2 * wheelNum (L + 1) := by
      omega
    rw [hc2, ht2, show 3 - (3 - (1 + L % 2)) = 2 - (L + 1) % 2 from by omega]
    by_cases hK : (luoFold (List.range' 1 L) (luoInit, 0, 1, 2)).1 (L + 1) = true
    · rw [if_pos hK]
      dsimp only
      rw [markSlice_twice]
      have hiff := luo_slice_iff (L + 1) j (by omega)
      by_cases hcond : wheelNum (L + 1) ∣ wheelNum j ∧
          wheelNum (L + 1) * wheelNum (L + 1) ≤ wheelNum j
      · rw [if_pos (hiff.2 hcond)]
        constructor
        · intro h
          exact absurd h (by simp)
        · rintro ⟨h1, hall⟩
          exact absurd hcond (hall (L + 1) (by omega) (by omega))
      · rw [if_neg (fun hcnd => hcond (hiff.1 hcnd))]
        rw [ih j]
        constructor
        · rintro ⟨h1, hall⟩
          refine ⟨h1, fun i hi1 hiL => ?_⟩
          by_cases hiL' : i < 1 + L
          · exact hall i hi1 hiL'
          · have : i = L + 1 := by omega
            rw [this]
            exact hcond
        · rintro ⟨h1, hall⟩
          exact ⟨h1, fun i hi1 hiL => hall i hi1 (by omega)⟩
    · rw [if_neg hK]
      dsimp only
      rw [ih j]
      have hKcomp : ∃ e, 1 ≤ e ∧ e < 1 + L ∧ wheelNum e ∣ wheelNum (L + 1) ∧
          wheelNum e * wheelNum e ≤ wheelNum (L + 1) := by
        have hnot := (ih (L + 1)).not.1 hK
        push_neg at hnot
        rcases hnot (by omega) with ⟨e, he1, heL, hprop⟩
        exact ⟨e, he1, heL, hprop.1, hprop.2⟩
      constructor
      · rintro ⟨h1, hall⟩
        refine ⟨h1, fun i hi1 hiL => ?_⟩
        by_cases hiL' : i < 1 + L
        · exact hall i hi1 hiL'
        · have hieq : i = L + 1 := by omega
          rintro ⟨hdvd, hsq⟩
          obtain ⟨e, he1, heL, hedvd, hesq⟩ := hKcomp
          have heJ : wheelNum e ∣ wheelNum j := hedvd.trans (hieq ▸ hdvd)
          have heJsq : wheelNum e * wheelNum e ≤ wheelNum j := by
            have hpos : 0 < wheelNum (L + 1) := by
              have := wheelNum_ge (L + 1) (by omega)
              omega
            have hx : wheelNum (L + 1) ≤ wheelNum j :=
              le_trans (Nat.le_mul_of_pos_left _ hpos) (hieq ▸ hsq)
            omega
          exact hall e he1 heL ⟨heJ, heJsq⟩
      · rintro ⟨h1, hall⟩
        exact ⟨h1, fun i hi1 hiL => hall i hi1 (by omega)⟩

theorem luoBlock_prime (n j : ℕ) (hj : 1 ≤ j) (hjn : wheelNum j ≤ n) :
    luoBlock n j = true ↔ (wheelNum j).Prime := by
  rw [luoBlock, luoFold_char]
  have hu6 := wheelNum_mod6 j
  have hu5 : 5 ≤ wheelNum j := wheelNum_ge j hj
  constructor
  · rintro ⟨h1, hall⟩
    by_contra hnp
    have hd := Nat.minFac_prime (by omega : wheelNum j ≠ 1)
    have hdvd := Nat.minFac_dvd (wheelNum j)
    have hsq : (wheelNum j).minFac * (wheelNum j).minFac ≤ wheelNum j := by
      have := Nat.minFac_sq_le_self (by omega : 0 < wheelNum j) hnp
      simpa [pow_two] using this
    have hn2 : ¬ 2 ∣ wheelNum j := by
      intro h2
      obtain ⟨c, hc⟩ := h2
      omega
    have hn3 : ¬ 3 ∣ wheelNum j := by
      intro h3
      obtain ⟨c, hc⟩ := h3
      omega
    have hp2 : ¬ 2 ∣ (wheelNum j).minFac := fun h => hn2 (h.trans hdvd)
    have hp3 : ¬ 3 ∣ (wheelNum j).minFac := fun h => hn3 (h.trans hdvd)
    have hp6 : (wheelNum j).minFac % 6 = 1 ∨ (wheelNum j).minFac % 6 = 5 := by
      have h2 : (wheelNum j).minFac % 2 ≠ 0 := fun h => hp2 (Nat.dvd_of_mod_eq_zero h)
      have h3 : (wheelNum j).minFac % 3 ≠ 0 := fun h => hp3 (Nat.dvd_of_mod_eq_zero h)
      omega
    have hp5 : 5 ≤ (wheelNum j).minFac := by
      have h2 := hd.two_le
      omega
    have hwi : wheelNum ((wheelNum j).minFac / 3) = (wheelNum j).minFac :=
      wheelNum_of_mod6 _ hp6
    have hle : (wheelNum j).minFac ≤ Nat.sqrt n := by
      apply Nat.le_sqrt.2
      calc (wheelNum j).minFac * (wheelNum j).minFac ≤ wheelNum j := hsq
        _ ≤ n := hjn
    refine hall ((wheelNum j).minFac / 3) (by omega) ?_ (by rw [hwi]; exact ⟨hdvd, hsq⟩)
    have : (wheelNum j).minFac / 3 ≤ Nat.sqrt n / 3 := Nat.div_le_div_right hle
    rw [integer_sqrt_eq_sqrt]
    omega
  · intro hp
    refine ⟨hj, fun i hi1 hiL => ?_⟩
    rintro ⟨hdvd, hsq⟩
    have hi5 := wheelNum_ge i hi1
    rcases (Nat.Prime.eq_one_or_self_of_dvd hp (wheelNum i) hdvd) with h1 | h1
    · omega
    · rw [h1] at hsq
      have : wheelNum j ≤ 1 := by
        by_contra hgt
        push_neg at hgt
        nlinarith
      omega

theorem lt_luoBlockSize_iff (n j : ℕ) : j < luoBlockSize n ↔ wheelNum j ≤ n := by
  rw [luoBlockSize]
  have := wheelNum_eq j
  by_cases h6 : n % 6 = 1
  · rw [if_pos h6]
    omega
  · rw [if_neg h6]
    by_cases hp : j % 2 = 0 <;> omega

theorem luo_mem (n p : ℕ) :
    p ∈ luo n ↔ (p.Prime ∧ p ≤ max 3 n) := by
  rw [luo]
  simp only [List.mem_cons, List.mem_map, List.mem_filter, List.mem_range]
  constructor
  · rintro (rfl | rfl | ⟨i, ⟨hir, hblock⟩, rfl⟩)
    · exact ⟨Nat.prime_two, le_trans (by norm_num) (le_max_left 3 n)⟩
    · exact ⟨Nat.prime_three, le_max_left 3 n⟩
    · have hi1 : 1 ≤ i := by
        have := (luoFold_char (integer_sqrt n / 3) i).1 hblock
        exact this.1
      have hile : wheelNum i ≤ n := (lt_luoBlockSize_iff n i).1 hir
      refine ⟨(luoBlock_prime n i hi1 hile).1 hblock, le_trans hile (le_max_right 3 n)⟩
  · rintro ⟨hp, hple⟩
    by_cases h2 : p = 2
    · exact Or.inl h2
    by_cases h3 : p = 3
    · exact Or.inr (Or.inl h3)
    have hp2 := hp.two_le
    have hn2 : ¬ 2 ∣ p := by
      intro h
      rcases (Nat.Prime.eq_one_or_self_of_dvd hp 2 h) with h1 | h1 <;> omega
    have hn3 : ¬ 3 ∣ p := by
      intro h
      rcases (Nat.Prime.eq_one_or_self_of_dvd hp 3 h) with h1 | h1 <;> omega
    have hp6 : p % 6 = 1 ∨ p % 6 = 5 := by
      have hm2 : p % 2 ≠ 0 := fun h => hn2 (Nat.dvd_of_mod_eq_zero h)
      have hm3 : p % 3 ≠ 0 := fun h => hn3 (Nat.dvd_of_mod_eq_zero h)
      omega
    have hp5 : 5 ≤ p := by omega
    have hpn : p ≤ n := by
      rcases Nat.le_total 3 n with h | h
      · rwa [max_eq_right h] at hple
      · rw [max_eq_left h] at hple
        omega
    have hwi : wheelNum (p / 3) = p := wheelNum_of_mod6 p hp6
    refine Or.inr (Or.inr ⟨p / 3, ⟨?_, ?_⟩, hwi⟩)
    · rw [lt_luoBlockSize_iff, hwi]
      exact hpn
    · rw [luoBlock_prime n (p / 3) (by omega) (by rw [hwi]; exact hpn), hwi]
      exact hp

theorem luo_sorted (n : ℕ) : List.Sorted (· < ·) (luo n) := by
  rw [luo]
  have hmem : ∀ b ∈ ((List.range (luoBlockSize n)).filter
      (fun i => luoBlock n i)).map (fun i => wheelNum i), 5 ≤ b := by
    intro b hb
    simp only [List.mem_map, List.mem_filter, List.mem_range] at hb
    obtain ⟨i, ⟨_, hblock⟩, rfl⟩ := hb
    have hi1 : 1 ≤ i := ((luoFold_char (integer_sqrt n / 3) i).1 hblock).1
    exact wheelNum_ge i hi1
  refine List.sorted_cons.2 ⟨?_, List.sorted_cons.2 ⟨?_, ?_⟩⟩
  · intro b hb
    rcases List.mem_cons.1 hb with rfl | hb'
    · norm_num
    · have := hmem b hb'
      omega
  · intro b hb
    have := hmem b hb
    omega
  · refine List.Pairwise.map _ (fun a b hab => wheelNum_lt a b hab) ?_
    exact (List.pairwise_lt_range _).sublist (List.filter_sublist _)

/-- Flag array of one block of `sieve_interval`: for each small prime `p`,
clear `block[multiple - start::p]` where
`multiple = ((start // p) + (start % p > 0)) * p`. -/
def intervalBlock (ps : List ℕ) (start : ℕ) : ℕ → Bool :=
  ps.foldl (fun b p =>
    markSlice b ((start / p + (if 0 < start % p then 1 else 0)) * p - start) p) onesArr

/-- The numbers one block of `sieve_interval` yields: `start + nonzero`. -/
def sieveBlockOut (ps : List ℕ) (start len : ℕ) : List ℕ :=
  ((List.range len).filter (fun j => intervalBlock ps start j)).map (fun j => start + j)

/-- Embedding of the generator `sieve_interval(a, b)` as the list of its
yields: the small primes `luo(integer_sqrt(b))` filtered to `[a, b)`, then
for each `start in range(max(sqrt+1, a), b, 10**6)` the surviving numbers
of the block `[start, start + min(10**6, b - start))`. -/
def sieve_interval (a b : ℕ) : List ℕ :=
  ((luo (integer_sqrt b)).filter (fun p => decide (a ≤ p ∧ p < b))) ++
    ((List.range' (max (integer_sqrt b + 1) a)
        ((b - max (integer_sqrt b + 1) a + 10 ^ 6 - 1) / 10 ^ 6) (10 ^ 6)).map
      (fun start => sieveBlockOut (luo (integer_sqrt b)) start (min (10 ^ 6) (b - start)))).flatten

theorem interval_slice_iff (p start j : ℕ) (hp : 1 ≤ p) :
    ((start / p + (if 0 < start % p then 1 else 0)) * p - start ≤ j ∧
      (j - ((start / p + (if 0 < start % p then 1 else 0)) * p - start)) % p = 0)
    ↔ p ∣ (start + j) := by
  have hdm := Nat.div_add_mod start p
  have hM1 : start ≤ (start / p + (if 0 < start % p then 1 else 0)) * p ∧
      (start / p + (if 0 < start % p then 1 else 0)) * p < start + p := by
    by_cases h0 : 0 < start % p
    · rw [if_pos h0]
      have he : (start / p + 1) * p = p * (start / p) + p := by ring
      have hlt : start % p < p := Nat.mod_lt start (by omega)
      omega
    · rw [if_neg h0]
      have he : (start / p + 0) * p = p * (start / p) := by ring
      omega
  have hq0 : (start / p + (if 0 < start % p then 1 else 0)) * p
      = p * (start / p + (if 0 < start % p then 1 else 0)) := by ring
  constructor
  · rintro ⟨h1, h2⟩
    obtain ⟨l, hl⟩ : p ∣ (j - ((start / p + (if 0 < start % p then 1 else 0)) * p - start)) :=
      Nat.dvd_of_mod_eq_zero h2
    refine ⟨start / p + (if 0 < start % p then 1 else 0) + l, ?_⟩
    have hb : p * (start / p + (if 0 < start % p then 1 else 0) + l)
        = p * (start / p + (if 0 < start % p then 1 else 0)) + p * l := by ring
    omega
  · rintro ⟨c, hc⟩
    have hcq : start / p + (if 0 < start % p then 1 else 0) ≤ c := by
      by_contra hlt
      push_neg at hlt
      have h1 : p * (c + 1) ≤ p * (start / p + (if 0 < start % p then 1 else 0)) :=
        Nat.mul_le_mul_left p hlt
      have hb : p * (c + 1) = p * c + p := by ring
      omega
    have h1 : p * (start / p + (if 0 < start % p then 1 else 0)) ≤ p * c :=
      Nat.mul_le_mul_left p hcq
    refine ⟨by omega, ?_⟩
    have hl : j - ((start / p + (if 0 < start % p then 1 else 0)) * p - start)
        = (c - (start / p + (if 0 < start % p then 1 else 0))) * p := by
      have hb : (c - (start / p + (if 0 < start % p then 1 else 0))) * p
          = c * p - (start / p + (if 0 < start % p then 1 else 0)) * p :=
        Nat.sub_mul _ _ _
      have hb2 : c * p = p * c := by ring
      omega
    rw [hl]
    exact Nat.mul_mod_left _ _

theorem intervalFold_char (start j : ℕ) : ∀ (ps : List ℕ), (∀ p ∈ ps, 1 ≤ p) →
    ∀ (b : ℕ → Bool),
    (ps.foldl (fun b p =>
        markSlice b ((start / p + (if 0 < start % p then 1 else 0)) * p - start) p) b) j = true
      ↔ (b j = true ∧ ∀ p ∈ ps, ¬ p ∣ (start + j)) := by
  intro ps
  induction ps with
  | nil =>
    intro _ b
    simp
  | cons p ps ih =>
    intro hps b
    rw [List.foldl_cons]
    rw [ih (fun q hq => hps q (List.mem_cons_of_mem p hq)) _]
    have hp1 : 1 ≤ p := hps p (List.mem_cons_self p ps)
    rw [markSlice]
    by_cases hcond : (start / p + (if 0 < start % p then 1 else 0)) * p - start ≤ j ∧
        (j - ((start / p + (if 0 < start % p then 1 else 0)) * p - start)) % p = 0
    · rw [if_pos hcond]
      have hdvd : p ∣ (start + j) := (interval_slice_iff p start j hp1).1 hcond
      constructor
      · rintro ⟨h, _⟩
        exact absurd h (by simp)
      · rintro ⟨_, hall⟩
        exact absurd hdvd (hall p (List.mem_cons_self p ps))
    · rw [if_neg hcond]
      have hnd : ¬ p ∣ (start + j) :=
        fun h => hcond ((interval_slice_iff p start j hp1).2 h)
      constructor
      · rintro ⟨hb, hall⟩
        refine ⟨hb, fun q hq => ?_⟩
        rcases List.mem_cons.1 hq with rfl | hq'
        · exact hnd
        · exact hall q hq'
      · rintro ⟨hb, hall⟩
        exact ⟨hb, fun q hq => hall q (List.mem_cons_of_mem p hq)⟩

theorem intervalBlock_char (ps : List ℕ) (hps : ∀ p ∈ ps, 1 ≤ p) (start j : ℕ) :
    intervalBlock ps start j = true ↔ ∀ p ∈ ps, ¬ p ∣ (start + j) := by
  rw [intervalBlock, intervalFold_char start j ps hps onesArr]
  rw [onesArr]
  simp

theorem sieveBlockOut_eq (ps : List ℕ) (hps : ∀ p ∈ ps, 1 ≤ p) (start len : ℕ) :
    sieveBlockOut ps start len
      = (List.range' start len).filter (fun x => decide (∀ p ∈ ps, ¬ p ∣ x)) := by
  rw [sieveBlockOut, List.range'_eq_map_range, List.filter_map]
  congr 1
  apply List.filter_congr
  intro j _
  rw [Bool.eq_iff_iff]
  simp only [Function.comp_apply, decide_eq_true_eq]
  exact intervalBlock_char ps hps start j

theorem blocks_flatten (b : ℕ) (f : ℕ → Bool) : ∀ (k A : ℕ),
    k = (b - A + 10 ^ 6 - 1) / 10 ^ 6 →
    ((List.range' A k (10 ^ 6)).map
        (fun start => (List.range' start (min (10 ^ 6) (b - start))).filter f)).flatten
      = (List.range' A (b - A)).filter f := by
  intro k
  induction k with
  | zero =>
    intro A hA
    have h0 : b - A = 0 := by omega
    rw [h0]
    simp
  | succ k ih =>
    intro A hA
    rw [List.range'_succ, List.map_cons, List.flatten_cons]
    rw [ih (A + 10 ^ 6) (by omega)]
    by_cases hle : b - A ≤ 10 ^ 6
    · rw [min_eq_right hle]
      have h0 : b - (A + 10 ^ 6) = 0 := by omega
      rw [h0]
      simp
    · rw [min_eq_left (by omega)]
      rw [← List.filter_append]
      congr 1
      have hsum : b - A = b - (A + 10 ^ 6) + 10 ^ 6 := by omega
      rw [hsum, ← List.range'_append_1]

theorem luo_pos (n p : ℕ) (hp : p ∈ luo n) : 1 ≤ p := by
  have := (luo_mem n p).1 hp
  have := this.1.two_le
  omega

theorem sieve_interval_two_eq (n : ℕ) :
    sieve_interval 2 n
      = ((luo (integer_sqrt n)).filter (fun p => decide (2 ≤ p ∧ p < n))) ++
        ((List.range' (max (integer_sqrt n + 1) 2) (n - max (integer_sqrt n + 1) 2)).filter
          (fun x => decide (∀ p ∈ luo (integer_sqrt n), ¬ p ∣ x))) := by
  rw [sieve_interval]
  congr 1
  simp only [sieveBlockOut_eq (luo (integer_sqrt n)) (luo_pos (integer_sqrt n))]
  exact blocks_flatten n _ _ _ rfl

theorem sieve_interval_mem (n x : ℕ) :
    x ∈ sieve_interval 2 n ↔ (x.Prime ∧ 2 ≤ x ∧ x < n) := by
  rw [sieve_interval_two_eq n]
  simp only [List.mem_append, List.mem_filter, List.mem_range'_1, decide_eq_true_eq]
  have hseq : integer_sqrt n = Nat.sqrt n := integer_sqrt_eq_sqrt n
  have h2A : 2 ≤ max (integer_sqrt n + 1) 2 := le_max_right _ _
  have hsA : integer_sqrt n + 1 ≤ max (integer_sqrt n + 1) 2 := le_max_left _ _
  constructor
  · rintro (⟨hmem, h2, hlt⟩ | ⟨⟨hA, hlt⟩, hnd⟩)
    · exact ⟨((luo_mem (integer_sqrt n) x).1 hmem).1, h2, hlt⟩
    · have h2x : 2 ≤ x := by omega
      have hxn : x < n := by omega
      refine ⟨?_, h2x, hxn⟩
      by_contra hnp
      have hq := Nat.minFac_prime (show x ≠ 1 by omega)
      have hqd := Nat.minFac_dvd x
      have hqsq : x.minFac * x.minFac ≤ x := by
        have := Nat.minFac_sq_le_self (by omega : 0 < x) hnp
        simpa [pow_two] using this
      have hqs : x.minFac ≤ Nat.sqrt n := Nat.le_sqrt.2 (by omega)
      have hqmem : x.minFac ∈ luo (integer_sqrt n) := by
        rw [luo_mem]
        exact ⟨hq, le_trans (by omega) (le_max_right 3 (integer_sqrt n))⟩
      exact hnd x.minFac hqmem hqd
  · rintro ⟨hp, h2, hlt⟩
    by_cases hle : x ≤ max 3 (integer_sqrt n)
    · exact Or.inl ⟨(luo_mem (integer_sqrt n) x).2 ⟨hp, hle⟩, h2, hlt⟩
    · right
      push_neg at hle
      have h3 : 3 < x := lt_of_le_of_lt (le_max_left 3 (integer_sqrt n)) hle
      have hs : integer_sqrt n < x := lt_of_le_of_lt (le_max_right 3 (integer_sqrt n)) hle
      have hA : max (integer_sqrt n + 1) 2 ≤ x := max_le (by omega) (by omega)
      refine ⟨⟨hA, by omega⟩, ?_⟩
      intro p hpmem hpd
      have hpp := (luo_mem (integer_sqrt n) p).1 hpmem
      rcases (Nat.Prime.eq_one_or_self_of_dvd hp p hpd) with h1 | h1
      · have := hpp.1.two_le
        omega
      · rw [h1] at hpp
        omega

theorem sieve_interval_sorted (n : ℕ) :
    List.Sorted (· < ·) (sieve_interval 2 n) := by
  rw [sieve_interval_two_eq n]
  rw [List.Sorted, List.pairwise_append]
  refine ⟨(luo_sorted (integer_sqrt n)).sublist (List.filter_sublist _),
    (List.pairwise_lt_range' _ _ _).sublist (List.filter_sublist _), ?_⟩
  intro a ha b hb
  rw [List.mem_filter] at ha hb
  have hdeca := of_decide_eq_true ha.2
  have hdecb := of_decide_eq_true hb.2
  have hamem := (luo_mem (integer_sqrt n) a).1 ha.1
  have hbr := List.mem_range'_1.1 hb.1
  have h2A : 2 ≤ max (integer_sqrt n + 1) 2 := le_max_right _ _
  have hb2 : 2 ≤ b := by omega
  have hbgt : max 3 (integer_sqrt n) < b := by
    by_contra hble
    push_neg at hble
    have hq := Nat.minFac_prime (show b ≠ 1 by omega)
    have hqd := Nat.minFac_dvd b
    have hqe : b.minFac ≤ b := Nat.minFac_le (by omega)
    have hqmem : b.minFac ∈ luo (integer_sqrt n) := by
      rw [luo_mem]
      exact ⟨hq, by omega⟩
    exact hdecb b.minFac hqmem hqd
  have : a ≤ max 3 (integer_sqrt n) := hamem.2
  omega

/-- For `m ≥ 1` (`luo` raises at `m = 0`), `luo m` is exactly the sieve's
prime list for the bound `max 3 m`: the prepended `2, 3` are unconditional,
so `luo 1 = luo 2 = [2, 3]` even though `3 > 1`. -/
theorem luo_eq (m : ℕ) : luo m = eratosthenes (max 3 m) := by
  have hsorted := luo_sorted m
  have hperm : List.Perm (luo m) (eratosthenes (max 3 m)) := by
    rw [List.perm_ext_iff_of_nodup hsorted.nodup (eratosthenes_sorted _).nodup]
    intro p
    rw [luo_mem m p, eratosthenes_mem]
  exact List.eq_of_perm_of_sorted hperm hsorted (eratosthenes_sorted _)

/-- `sieve_interval(2, n)` lists the primes of the half-open interval
`[2, n)`, i.e. agrees with `eratosthenes (n - 1)`, not `eratosthenes n`. -/
theorem sieve_interval_eq (n : ℕ) (hn : 2 ≤ n) :
    sieve_interval 2 n = eratosthenes (n - 1) := by
  have hsorted := sieve_interval_sorted n
  have hperm : List.Perm (sieve_interval 2 n) (eratosthenes (n - 1)) := by
    rw [List.perm_ext_iff_of_nodup hsorted.nodup (eratosthenes_sorted _).nodup]
    intro p
    rw [sieve_interval_mem n p, eratosthenes_mem]
    constructor
    · rintro ⟨hp, h2, hlt⟩
      exact ⟨hp, by omega⟩
    · rintro ⟨hp, hle⟩
      exact ⟨hp, hp.two_le, by omega⟩
  exact List.eq_of_perm_of_sorted hperm hsorted (eratosthenes_sorted _)

/-- C7 counterexample: at `n = 2` the segmented sieve over `[2, 2]` yields
nothing (its block loop covers the half-open `[2, 2)`), while the
non-segmented sieve on bound `2` returns `[2]` — so the two do not agree
for every `n ≥ 2`. -/
theorem claim_C7_counterexample :
    sieve_interval 2 2 = [] ∧ eratosthenes 2 = [2] := by
  have hs : integer_sqrt 2 = 1 := by
    rw [integer_sqrt_eq_sqrt]
    symm
    rw [Nat.eq_sqrt]
    norm_num
  constructor
  · rw [sieve_interval, hs]
    rfl
  · rw [eratosthenes, hs]
    rfl

/-- C7 (amended): the segmented sieve `sieve_interval(2, n)` yields exactly
the primes of the half-open interval `[2, n)`, in increasing order — i.e. it
equals `eratosthenes(n-1)`, not `eratosthenes(n)`; and the small-prime step
`luo(m)` equals `eratosthenes(max 3 m)` for `m ≥ 1`. -/
theorem claim_C7_segmented_sieve :
    (∀ m : ℕ, 1 ≤ m → luo m = eratosthenes (max 3 m)) ∧
    (∀ n : ℕ, 2 ≤ n →
      (∀ x, x ∈ sieve_interval 2 n ↔ (x.Prime ∧ 2 ≤ x ∧ x < n)) ∧
      sieve_interval 2 n = eratosthenes (n - 1)) :=
  ⟨fun m _ => luo_eq m,
    fun n hn => ⟨fun x => sieve_interval_mem n x, sieve_interval_eq n hn⟩⟩

/-- C7 witness: concrete instances `m = 5` and `n = 30`. -/
theorem claim_C7_witness :
    ((1 : ℕ) ≤ 5 ∧ luo 5 = eratosthenes (max 3 5)) ∧
    ((2 : ℕ) ≤ 30 ∧
      ((∀ x, x ∈ sieve_interval 2 30 ↔ (x.Prime ∧ 2 ≤ x ∧ x < 30)) ∧
        sieve_interval 2 30 = eratosthenes (30 - 1))) :=
  ⟨⟨by norm_num, claim_C7_segmented_sieve.1 5 (by norm_num)⟩,
   ⟨by norm_num, claim_C7_segmented_sieve.2 30 (by norm_num)⟩⟩

end Morsels
